import Mathlib

/-!
Verification development for the odin pipeline-execution core.

The definitions below are a shallow embedding of the Python source under
`src/odin/odin/`: the reference-resolution mini-language
(`core.py`, `executor.py`), the multi-pod resource-handler status
aggregation (`handlers/tfjob.py`, `handlers/pytorchjob.py`,
`handlers/elasticjob.py`, `k8s.py`), the hash-probe task clone
(`k8s.py:KubernetesTaskManager.hash_task`), the hash-cache backends
(`store.py`), and the executor control loop (`executor.py:Executor.run`).

External effects that cannot appear in a shallow embedding (SHA-1 digests,
the filesystem walked by `hash_files`, the container digests returned by
Kubernetes, task completion order under `asyncio.as_completed`, and each
task's terminal status) are supplied as parameters of an `Env` record; the
control flow and all store/cache writes are translated from the source.
-/

namespace Odin

/-! ### Values stored in the job store, as seen by the reference resolver.

Python records are dicts whose values are strings, nested dicts, or `None`.
`extract_outputs` (core.py) walks such a value along a key path.
-/

inductive Val where
  | vnone : Val
  | str : String → Val
  | dict : List (String × Val) → Val
deriving Repr

/-- Errors the Python resolver can raise: `KeyError` from `store.get` on a
missing label, `TypeError` from `"".join` on a non-string part or from
indexing a non-dict, and exhaustion of the recursion-depth fuel (which the
Python recursion never hits, since each nested span is strictly shorter). -/
inductive RErr where
  | keyError : RErr
  | typeError : RErr
  | fuel : RErr
deriving Repr, DecidableEq

/-- The job store as the resolver sees it: a map from label to record. -/
def StoreV := List (String × Val)

/-- Lookup in the store; `none` models a label absent from the db. -/
def storeGet (store : StoreV) (label : String) : Option Val :=
  List.lookup label store

/-- core.py `is_reference`: a string beginning with `^`. -/
def isReference (s : String) : Bool :=
  match s.toList with
  | '^' :: _ => true
  | _ => false

/-- core.py `REFERENCE_KEY.sub("", x)`: strip at most one leading caret. -/
def stripCaret (s : String) : String :=
  match s.toList with
  | '^' :: rest => String.mk rest
  | _ => s

/-- Python `str.split('.')` on the character list: split on every dot,
keeping empty segments (so the result is always non-empty). -/
def splitOnDot : List Char → List (List Char)
  | [] => [[]]
  | c :: rest =>
    let groups := splitOnDot rest
    if c = '.' then [] :: groups
    else
      match groups with
      | [] => [[c]]
      | g :: gs => (c :: g) :: gs

/-- core.py `parse_reference`: split on `.` and strip the leading caret from
the first segment. -/
def parseReference (ref : String) : List String :=
  match (splitOnDot ref.toList).map String.mk with
  | [] => []
  | p :: rest => stripCaret p :: rest

/-- Prefix test on character lists. -/
def prefixOfChars : List Char → List Char → Bool
  | [], _ => true
  | _ :: _, [] => false
  | a :: as, b :: bs => a = b && prefixOfChars as bs

/-- Infix test on character lists (the empty needle always matches). -/
def infixOfChars (needle : List Char) : List Char → Bool
  | [] => needle.isEmpty
  | c :: rest => prefixOfChars needle (c :: rest) || infixOfChars needle rest

/-- Python substring containment `k in s` (for `str` values reached by
`extract_outputs`); the empty string is a substring of everything. -/
def pySubstr (k s : String) : Bool :=
  infixOfChars k.toList s.toList

/-- core.py `extract_outputs`: walk `results` along `path`; on a missing key
break and return `None`.  Indexing a string or `None` with a string key
raises `TypeError` exactly as in Python (`results[key]` after a successful
`in` test). -/
def extractOutputs : List String → Val → Except RErr Val
  | [], v => .ok v
  | k :: rest, .dict entries =>
    match List.lookup k entries with
    | some v => extractOutputs rest v
    | none => .ok .vnone
  | k :: _, .str s => if pySubstr k s then .error .typeError else .ok .vnone
  | _ :: _, .vnone => .error .typeError

/-- core.py `_get_child_name`: child labels are `<parent>--<name>`. -/
def getChildName (parentName name : String) : String :=
  parentName ++ "--" ++ name

/-- executor.py `Executor.extract_outputs`: parse the reference, look the
task's child label up in the store (`KeyError` when absent), then walk the
record. -/
def executorExtract (store : StoreV) (pipelineId : String) (reference : String) :
    Except RErr Val :=
  match parseReference reference with
  | [] => .error .typeError
  | task :: path =>
    match storeGet store (getChildName pipelineId task) with
    | none => .error .keyError
    | some entry => extractOutputs path entry

/-- Python `"".join(new_ref)`: every part must be a string (`TypeError`
otherwise). -/
def joinParts : List Val → Except RErr String
  | [] => .ok ""
  | .str s :: rest => (joinParts rest).map (fun t => s ++ t)
  | _ :: _ => .error .typeError

/-- The character scan of `Executor.rewrite_references`: walk the input with
a stack of open-brace positions (`starts`), collecting top-level text and,
at each top-level closing brace, the recursively rewritten span (`rw` is
the recursive call, applied to `orig[start:i]`).  A span that rewrites to
itself gets its braces restored.  An unmatched `}` with an empty stack is
literal; if braces remain open at the end, everything from the first
unmatched `{` is copied out verbatim. -/
def scanLoop (rw : String → Except RErr Val) (orig : List Char) :
    List Char → Nat → List Nat → List Val → Except RErr (List Val)
  | [], _, starts, acc =>
    match starts with
    | [] => .ok acc.reverse
    | s :: rest =>
      let s0 := (s :: rest).getLastD 0
      .ok (Val.str (String.mk (orig.drop (s0 - 1))) :: acc).reverse
  | c :: cs, i, starts, acc =>
    if c = '{' then
      scanLoop rw orig cs (i + 1) ((i + 1) :: starts) acc
    else if c = '}' then
      match starts with
      | [] => scanLoop rw orig cs (i + 1) [] (Val.str "\x7d" :: acc)
      | start :: starts' =>
        if starts'.isEmpty then
          let toSub := String.mk ((orig.drop start).take (i - start))
          match rw toSub with
          | .error e => .error e
          | .ok sub =>
            let sub := match sub with
              | .str s => if s = toSub then Val.str ("\x7b" ++ toSub ++ "\x7d") else .str s
              | v => v
            scanLoop rw orig cs (i + 1) starts' (sub :: acc)
        else
          scanLoop rw orig cs (i + 1) starts' acc
    else
      if starts.isEmpty then
        scanLoop rw orig cs (i + 1) starts (Val.str (String.singleton c) :: acc)
      else
        scanLoop rw orig cs (i + 1) starts acc

/-- executor.py `Executor.rewrite_references`, with a fuel parameter as the
termination measure for the recursion into brace spans (each span is at
least two characters shorter than its enclosing string, so
`length + 1` fuel always suffices). -/
def rewriteFuel (store : StoreV) (pipelineId : String) :
    Nat → String → Except RErr Val
  | 0, _ => .error .fuel
  | fuel + 1, reference =>
    let cs := reference.toList
    match scanLoop (rewriteFuel store pipelineId fuel) cs cs 0 [] [] with
    | .error e => .error e
    | .ok parts =>
      match joinParts parts with
      | .error e => .error e
      | .ok joined =>
        if isReference joined then executorExtract store pipelineId joined
        else .ok (.str joined)

/-- Entry point of the resolver on a string argument. -/
def rewriteReferences (store : StoreV) (pipelineId : String) (reference : String) :
    Except RErr Val :=
  rewriteFuel store pipelineId (reference.length + 1) reference

/-! ### Multi-pod handler status aggregation (C5 of the spec's components).

`k8s.py` defines `ResourceHandler.TERMINAL_PHASES` and
`StatusType.from_pod_status`; the TFJob, PyTorchJob and PyTorchElasticJob
handlers all implement `status` by listing the job's pods and, when every
pod is terminal, returning the FIRST pod's raw `V1PodStatus`, which
`KubernetesTaskManager.status` then normalizes through `from_pod_status`.
-/

inductive StatusType where
  | RUNNING | FAILED | SUCCEEDED | MISSING
deriving Repr, DecidableEq

/-- k8s.py `ResourceHandler.TERMINAL_PHASES`. -/
def TERMINAL_PHASES : List String :=
  ["Terminated", "Succeeded", "Error", "Failed", "ErrImagePull"]

/-- The fields of a `V1PodStatus` the code reads. -/
structure PodStatus where
  phase : String
  message : Option String
deriving Repr, DecidableEq

/-- k8s.py `StatusType.from_pod_status`. -/
def fromPodStatus (p : PodStatus) : StatusType :=
  if ¬ TERMINAL_PHASES.contains p.phase then .RUNNING
  else if p.phase = "Succeeded" then .SUCCEEDED
  else .FAILED

/-- What a multi-pod handler's `status` returns: either a `Status`
namedtuple (the RUNNING case), or the first pod's raw `V1PodStatus`
(all-terminal case), or an `IndexError` (`statuses[0]` of an empty list). -/
inductive HandlerResult where
  | status (s : StatusType) (message : Option String)
  | rawPod (p : PodStatus)
  | indexError
deriving Repr, DecidableEq

/-- handlers/tfjob.py `TFJobHandler.status`, as a function of the pod
statuses returned by its label selector
(`tf-job-name=<id>, group-name=kubeflow.org`). -/
def tfjobStatus (statuses : List PodStatus) : HandlerResult :=
  if ¬ (statuses.all fun s => TERMINAL_PHASES.contains s.phase) then
    .status .RUNNING none
  else
    match statuses with
    | [] => .indexError
    | p :: _ => .rawPod p

/-- handlers/pytorchjob.py `PyTorchJobHandler.status`, as a function of the
pod statuses returned by its label selector
(`pytorch-job-name=<id>, group-name=kubeflow.org`). -/
def pytorchjobStatus (statuses : List PodStatus) : HandlerResult :=
  if ¬ (statuses.all fun s => TERMINAL_PHASES.contains s.phase) then
    .status .RUNNING none
  else
    match statuses with
    | [] => .indexError
    | p :: _ => .rawPod p

/-- handlers/elasticjob.py `PyTorchElasticJobHandler.status`, as a function
of the pod statuses selected by its group label and name prefix. -/
def elasticjobStatus (statuses : List PodStatus) : HandlerResult :=
  if ¬ (statuses.all fun s => TERMINAL_PHASES.contains s.phase) then
    .status .RUNNING none
  else
    match statuses with
    | [] => .indexError
    | p :: _ => .rawPod p

/-- k8s.py `KubernetesTaskManager.status`: pass a `Status` through, convert
a raw pod status via `from_pod_status`; `none` models the uncaught
`IndexError`. -/
def managerNormalize : HandlerResult → Option StatusType
  | .status s _ => some s
  | .rawPod p => some (fromPodStatus p)
  | .indexError => none

/-- Modelled from the spec: the aggregation §4.5 describes — `SUCCEEDED`
when every pod is terminal and at least one pod succeeded, `RUNNING` when
any pod is non-terminal, `FAILED` otherwise.  Used only to compare the
spec's words with the code's behaviour. -/
def specMultiPodStatus (statuses : List PodStatus) : StatusType :=
  if ¬ (statuses.all fun s => TERMINAL_PHASES.contains s.phase) then .RUNNING
  else if statuses.any fun s => s.phase = "Succeeded" then .SUCCEEDED
  else .FAILED

/-! ### The hash-probe clone (k8s.py `KubernetesTaskManager.hash_task`). -/

/-- k8s.py `Volume` namedtuple. -/
structure Volume where
  path : String
  name : String
  claim : String
deriving Repr, DecidableEq

/-- A task's `command` field is `Union[str, List[str]]`. -/
inductive Cmd where
  | one : String → Cmd
  | many : List String → Cmd
deriving Repr, DecidableEq

/-- `listify` applied to a command. -/
def listifyCmd : Cmd → List String
  | .one s => [s]
  | .many l => l

/-- The fields of k8s.py `Task` that `hash_task` and the pod-spec synthesis
read.  `mounts` is the attribute the pod-spec synthesis
(`task_to_pod_spec`) consumes. -/
structure KTask where
  name : String
  image : String
  command : Cmd
  args : List String
  mounts : Option (List Volume)
  numGpus : Option Nat
  nodeSelector : Option (List (String × String))
  pullPolicy : String
  resourceType : String
  numWorkers : Nat
  inputs : Option (List String)
  outputs : Option (List (String × List String))
deriving Repr, DecidableEq

/-- k8s.py `HASH_TRAILING`. -/
def HASH_TRAILING : String := "-hash"

/-- The clone mutation performed by `KubernetesTaskManager.hash_task` on the
deep copy of the task before submitting the probe: append `-hash` to the
name, replace the command with `sleep 300`, clear `node_selector` and
`num_gpus`.  The source then executes `task.mount = None`, which assigns a
new attribute named `mount`; the `mounts` attribute that the pod-spec
synthesis reads is left unchanged, so no field of this structure changes. -/
def hashTaskClone (t : KTask) : KTask :=
  { t with
    name := t.name ++ HASH_TRAILING
    args := ["300"]
    command := .one "sleep"
    nodeSelector := none
    numGpus := none }

/-! ### Hash-cache backends (store.py `MemoryCache`, `MongoCache`). -/

/-- store.py `MemoryCache.__getitem__`: `self.db.get(key)` — `None` when
the key is absent. -/
def memoryCacheGetItem (db : List (String × String)) (key : String) :
    Option String :=
  List.lookup key db

/-- store.py `MongoCache.__getitem__`: `find_one({inputs: key})` on the
`hashes` collection (modelled as a map from the `inputs` field to the
`outputs` field), then `hit[OUT] if hit else None`. -/
def mongoCacheGetItem (coll : List (String × String)) (key : String) :
    Option String :=
  match List.lookup key coll with
  | some out => some out
  | none => none

/-! ### The executor control loop (executor.py `Executor.run`).

The loop is translated phase by phase: the DAG-error write, the BUILDING
write, the construction of the initial task records, the RUNNING write,
then per topological layer the layer-start write, the per-task submission
phase (reference rewriting, cache probe, submit), the completion drain
(processed in finish order, supplied by `Env.finishOrder`), and the final
write.  `Env` supplies everything external: the hash primitives, the
container digests, each task's submit/terminal behaviour, and the
`asyncio.as_completed` finish order.  Reference rewriting of `args` and
`inputs` (lines 255-259) is modelled as the identity — the task is taken
with its post-rewrite values — while the read-modify-write of the task
record that follows it (lines 260-263) is performed. -/

/-- executor.py `PipelineStatus`. -/
inductive PStatus where
  | BUILDING | RUNNING | TERMINATED | DONE
deriving Repr, DecidableEq

/-- The pipeline record the executor persists under `my_id`.  The `jobs`
key is absent (`none`) until the RUNNING write adds it.  Timestamps are
modelled by presence flags. -/
structure PipeRecord where
  label : String
  jobName : String
  revVer : String
  status : PStatus
  executed : List String
  executing : List String
  waiting : List String
  jobs : Option (List String)
  submitTimeSet : Bool
  completionTimeSet : Bool
  errorMessage : Option String
deriving Repr, DecidableEq

/-- The task record persisted under each child label
(`Executor._task_to_entry` plus the keys later writes add). -/
structure TaskRecord where
  label : String
  parent : String
  command : Cmd
  name : String
  image : String
  args : List String
  resourceType : String
  nodeSelector : Option (List (String × String))
  pullPolicy : String
  numGpus : Option Nat
  inputs : Option (List String)
  outputs : Option (List (String × List String))
  resourceId : Option String
  submitTimeSet : Bool
  completionTimeSet : Bool
deriving Repr, DecidableEq

/-- The externally determined behaviour of one task: whether the hash
probe inside `hash_inputs` raises `SubmitError`, whether `sched.submit`
raises `SubmitError`, the resource id Kubernetes assigns, whether the
final status poll reports `SUCCEEDED`, the handler's status message, and
whether the task wrote `request_early_exit = true` into its own record
while running. -/
structure TaskBeh where
  hashTaskFails : Bool
  hashTaskError : String
  submitFails : Bool
  submitError : String
  resourceId : String
  succeeded : Bool
  statusMessage : Option String
  earlyExit : Bool
deriving Repr

/-- The environment of one run: SHA-1 (`sha1Hex`), the filesystem hash
(`hash_files`), the container digests per task name (`sched.hash_task`),
per-task behaviour, and the per-layer finish order of
`asyncio.as_completed` (a list of indices into the layer's running list,
realised through `pickPerm` so that any index list yields a permutation). -/
structure Env where
  sha1Hex : String → String
  hashFiles : List String → String
  containerHashes : String → List String
  beh : String → TaskBeh
  finishOrder : Nat → List Nat

/-- utils/hash.py `hash_args`: SHA-1 of the concatenated command and args. -/
def hashArgs (env : Env) (command : Cmd) (args : List String) : String :=
  env.sha1Hex (String.join (listifyCmd command ++ args))

/-- executor.py `hash_inputs`: SHA-1 over the arg hash, the concatenated
container hashes, and the input-file hash (empty when `inputs is None`). -/
def hashInputs (env : Env) (t : KTask) : String :=
  let argHash := hashArgs env t.command t.args
  let containerHash := env.containerHashes t.name
  let inputHash := match t.inputs with
    | some files => env.hashFiles files
    | none => ""
  env.sha1Hex (argHash ++ String.join containerHash ++ inputHash)

/-- Insertion of one key/hash pair into an alphabetically sorted list
(mead's `order_json` sorts the keys). -/
def insertByKey (p : String × String) : List (String × String) → List (String × String)
  | [] => [p]
  | q :: rest => if p.1 ≤ q.1 then p :: q :: rest else q :: insertByKey p rest

/-- Key-sorting used by `order_json` before serialisation. -/
def sortByKey : List (String × String) → List (String × String)
  | [] => []
  | p :: rest => insertByKey p (sortByKey rest)

/-- `json.dumps` of a string-to-string dict with sorted keys. -/
def jsonDumpsHashes (entries : List (String × String)) : String :=
  "\x7b" ++ String.intercalate ", "
    (entries.map fun kv => "\"" ++ kv.1 ++ "\": \"" ++ kv.2 ++ "\"") ++ "\x7d"

/-- executor.py `hash_outputs`: SHA-1 of the sorted JSON of per-key file
hashes. -/
def hashOutputs (env : Env) (outputs : List (String × List String)) : String :=
  let outputHashes := outputs.map fun kv => (kv.1, env.hashFiles kv.2)
  env.sha1Hex (jsonDumpsHashes (sortByKey outputHashes))

/-- One observable store/scheduler effect of the run, in program order. -/
inductive Ev where
  | pipeW (r : PipeRecord)
  | taskW (r : TaskRecord)
  | submit (name : String)
  | cacheW (key value : String)
deriving Repr, DecidableEq

/-- The executor's in-memory state: `my_status` (`pipe`), the task records
in the job store, the hash cache contents, and the Python local `in_hash`
(last value assigned in the submission loop, read again by the completion
loop — modelled exactly as the source's single variable). -/
structure ExecSt where
  pipe : PipeRecord
  taskdb : List (String × TaskRecord)
  cache : List (String × String)
  lastInHash : String
deriving Repr

/-- Upsert into an association list (Python dict update). -/
def assocSet {β : Type} (k : String) (v : β) :
    List (String × β) → List (String × β)
  | [] => [(k, v)]
  | (k', v') :: rest =>
    if k' = k then (k, v) :: rest else (k', v') :: assocSet k v rest

/-- A default record for total lookup; never reached in a run, since every
task's record is created in the construction phase before any access. -/
def defaultTaskRecord : TaskRecord :=
  { label := "", parent := "", command := .one "", name := "", image := ""
    args := [], resourceType := "", nodeSelector := none, pullPolicy := ""
    numGpus := none, inputs := none, outputs := none, resourceId := none
    submitTimeSet := false, completionTimeSet := false }

/-- `self.store.get(label)` for a task record. -/
def getTask (st : ExecSt) (label : String) : TaskRecord :=
  (List.lookup label st.taskdb).getD defaultTaskRecord

/-- executor.py `Executor._task_to_entry`. -/
def taskToEntry (myId childTaskId localName : String) (t : KTask) : TaskRecord :=
  { label := childTaskId, parent := myId, command := t.command
    name := localName, image := t.image, args := t.args
    resourceType := t.resourceType, nodeSelector := t.nodeSelector
    pullPolicy := t.pullPolicy, numGpus := t.numGpus
    inputs := t.inputs, outputs := t.outputs
    resourceId := none, submitTimeSet := false, completionTimeSet := false }

/-- The submission tail of the per-task body (executor.py lines 286-300):
raise on `SubmitError` after persisting `TERMINATED`, else record the
resource id and submit time.  Returns the new state, the emitted events,
the task to append to `running`, and the abort flag. -/
def submitStep (env : Env) (st : ExecSt) (t : KTask) :
    ExecSt × List Ev × Option KTask × Bool :=
  if (env.beh t.name).submitFails then
    let pipe := { st.pipe with
      status := .TERMINATED
      errorMessage := some (env.beh t.name).submitError }
    ({ st with pipe := pipe }, [.pipeW pipe], none, true)
  else
    let rec2 := { getTask st t.name with
                  resourceId := some (env.beh t.name).resourceId
                  submitTimeSet := true }
    ({ st with taskdb := assocSet t.name rec2 st.taskdb },
      [.submit t.name, .taskW rec2], some t, false)

/-- The per-task submission-phase body (executor.py lines 253-300): write
back the (rewritten) args and inputs, and when the task declares outputs
compute the input fingerprint (aborting if the hash probe raises), compare
the cached output fingerprint with the current one through the cache's
`__getitem__`, and either mark the task `Cached` and move it to
`executed`, or fall through to submission. -/
def processTask (env : Env) (st : ExecSt) (t : KTask) :
    ExecSt × List Ev × Option KTask × Bool :=
  let rec1 := { getTask st t.name with args := t.args, inputs := t.inputs }
  let st := { st with taskdb := assocSet t.name rec1 st.taskdb }
  let evs := [Ev.taskW rec1]
  match t.outputs with
  | some outs =>
    if (env.beh t.name).hashTaskFails then
      let pipe := { st.pipe with
        status := .TERMINATED
        errorMessage := some (env.beh t.name).hashTaskError }
      ({ st with pipe := pipe }, evs ++ [.pipeW pipe], none, true)
    else
      let inHash := hashInputs env t
      let st := { st with lastInHash := inHash }
      let outHash := hashOutputs env outs
      let prevHash := memoryCacheGetItem st.cache inHash
      if prevHash = some outHash then
        let rec2 := { getTask st t.name with resourceId := some "Cached" }
        let st := { st with taskdb := assocSet t.name rec2 st.taskdb }
        let pipe := { st.pipe with
                      executing := st.pipe.executing.erase t.name
                      executed := st.pipe.executed ++ [t.name] }
        ({ st with pipe := pipe },
          evs ++ [.taskW rec2, .pipeW pipe], none, false)
      else
        let res := submitStep env st t
        (res.1, evs ++ res.2.1, res.2.2.1, res.2.2.2)
  | none =>
    let res := submitStep env st t
    (res.1, evs ++ res.2.1, res.2.2.1, res.2.2.2)

/-- The submission loop over one layer, stopping at the first abort. -/
def submitPhase (env : Env) : ExecSt → List KTask →
    ExecSt × List Ev × List KTask × Bool
  | st, [] => (st, [], [], false)
  | st, t :: rest =>
    let res := processTask env st t
    if res.2.2.2 then (res.1, res.2.1, [], true)
    else
      let res2 := submitPhase env res.1 rest
      (res2.1, res.2.1 ++ res2.2.1, res.2.2.1.toList ++ res2.2.2.1, res2.2.2.2)

/-- The per-completion body (executor.py lines 304-334): set the task's
completion time, poll the final status, on failure persist `TERMINATED`
and continue the drain; otherwise honour `request_early_exit`, move the
task from `executing` to `executed`, persist, and when the task has
outputs write `cache[in_hash] = hash_outputs(...)` — with `in_hash` the
loop variable left over from the submission loop. -/
def processCompletion (env : Env) (st : ExecSt) (t : KTask) :
    ExecSt × List Ev :=
  let rec1 := { getTask st t.name with completionTimeSet := true }
  let st := { st with taskdb := assocSet t.name rec1 st.taskdb }
  let evs := [Ev.taskW rec1]
  if ¬ (env.beh t.name).succeeded then
    let msg := (env.beh t.name).statusMessage.getD
      ("Task `" ++ t.name ++ "` failed")
    let pipe := { st.pipe with status := .TERMINATED, errorMessage := some msg }
    ({ st with pipe := pipe }, evs ++ [.pipeW pipe])
  else
    let pipe1 := if (env.beh t.name).earlyExit
      then { st.pipe with status := .DONE } else st.pipe
    let pipe2 := { pipe1 with
                   executing := pipe1.executing.erase t.name
                   executed := pipe1.executed ++ [t.name] }
    let st := { st with pipe := pipe2 }
    let evs := evs ++ [Ev.pipeW pipe2]
    match t.outputs with
    | some outs =>
      let key := st.lastInHash
      let value := hashOutputs env outs
      ({ st with cache := assocSet key value st.cache },
        evs ++ [.cacheW key value])
    | none => (st, evs)

/-- The completion drain over the layer's running tasks in finish order. -/
def drainPhase (env : Env) : ExecSt → List KTask → ExecSt × List Ev
  | st, [] => (st, [])
  | st, t :: rest =>
    let res := processCompletion env st t
    let res2 := drainPhase env res.1 rest
    (res2.1, res.2 ++ res2.2)

/-- Take the element at index `i`, returning it and the remainder. -/
def removeAt? {α : Type} : List α → Nat → Option (α × List α)
  | [], _ => none
  | a :: l, 0 => some (a, l)
  | a :: l, n + 1 => (removeAt? l n).map fun p => (p.1, a :: p.2)

/-- Realise an index list as a permutation: repeatedly pick the indexed
element; out-of-range indices are skipped and unpicked elements are kept
in order at the end, so the result is a permutation of the input for any
index list. -/
def pickPerm {α : Type} : List Nat → List α → List α
  | [], l => l
  | i :: is, l =>
    match removeAt? l i with
    | some (a, rest) => a :: pickPerm is rest
    | none => pickPerm is l

/-- The layer-start write (executor.py lines 242-250): move the previous
layer's `executing` into `executed` (when non-empty), install the new
layer in `executing`, and set `waiting` to the flattened later layers. -/
def layerStart (st : ExecSt) (group : List KTask) (rest : List (List KTask)) :
    ExecSt × List Ev :=
  let pipe0 := st.pipe
  let pipe1 := if pipe0.executing.isEmpty then pipe0
    else { pipe0 with executed := pipe0.executed ++ pipe0.executing }
  let pipe2 := { pipe1 with
                 executing := group.map (·.name)
                 waiting := (rest.map (fun g => g.map (·.name))).flatten }
  ({ st with pipe := pipe2 }, [.pipeW pipe2])

/-- The layer loop (executor.py lines 242-339): per layer the start write,
the submission phase, the drain in finish order, then the terminal-status
break. -/
def runLayers (env : Env) : ExecSt → Nat → List (List KTask) →
    ExecSt × List Ev × Bool
  | st, _, [] => (st, [], false)
  | st, layerIdx, g :: rest =>
    let ls := layerStart st g rest
    let sp := submitPhase env ls.1 g
    if sp.2.2.2 then (sp.1, ls.2 ++ sp.2.1, true)
    else
      let order := pickPerm (env.finishOrder layerIdx) sp.2.2.1
      let dp := drainPhase env sp.1 order
      if dp.1.pipe.status = .DONE ∨ dp.1.pipe.status = .TERMINATED then
        (dp.1, ls.2 ++ sp.2.1 ++ dp.2, false)
      else
        let rl := runLayers env dp.1 (layerIdx + 1) rest
        (rl.1, ls.2 ++ sp.2.1 ++ dp.2 ++ rl.2.1, rl.2.2)

/-- The final write (executor.py lines 341-349): set the completion time,
flush a non-`TERMINATED` pipeline's `executing` into `executed`, and set
any non-`TERMINATED` status to `DONE`. -/
def finalPhase (st : ExecSt) : ExecSt × List Ev :=
  let pipe0 := { st.pipe with completionTimeSet := true }
  let pipe1 := if ¬ pipe0.executing.isEmpty ∧ pipe0.status ≠ .TERMINATED
    then { pipe0 with executed := pipe0.executed ++ pipe0.executing
                      executing := [] }
    else pipe0
  let pipe2 := if pipe1.status ≠ .TERMINATED
    then { pipe1 with status := .DONE } else pipe1
  ({ st with pipe := pipe2 }, [.pipeW pipe2])

/-- A task as the run sees it: the `Task` object plus the `_name` local
name kept in the task dict. -/
structure GTask where
  task : KTask
  localName : String
deriving Repr, DecidableEq

/-- The pipeline record as first persisted (both the DAG-error write and
the BUILDING write): empty lists, no `jobs` key, submit time set. -/
def initialPipe (myId taskId revVer : String) (status : PStatus)
    (errMsg : Option String) : PipeRecord :=
  { label := myId, jobName := taskId, revVer := revVer, status := status
    executed := [], executing := [], waiting := [], jobs := none
    submitTimeSet := true, completionTimeSet := false
    errorMessage := errMsg }

/-- The construction loop for one group (executor.py lines 223-231). -/
def buildGroupEntries (myId : String) : ExecSt → List GTask → ExecSt × List Ev
  | st, [] => (st, [])
  | st, gt :: rest =>
    let entry := taskToEntry myId gt.task.name gt.localName gt.task
    let st1 := { st with taskdb := assocSet gt.task.name entry st.taskdb }
    let res := buildGroupEntries myId st1 rest
    (res.1, Ev.taskW entry :: res.2)

/-- The construction loop over all groups (executor.py lines 222-233). -/
def buildEntries (myId : String) : ExecSt → List (List GTask) → ExecSt × List Ev
  | st, [] => (st, [])
  | st, g :: rest =>
    let res := buildGroupEntries myId st g
    let res2 := buildEntries myId res.1 rest
    (res2.1, res.2 ++ res2.2)

/-- The flattened child-task names of all groups, in group order
(`all_tasks` in the source). -/
def allNames (groups : List (List GTask)) : List String :=
  (groups.map (fun g => g.map (·.task.name))).flatten

/-- The executor's in-memory state as the run begins, holding the
BUILDING pipeline record just persisted. -/
def initSt (myId taskId revVer : String) (cache0 : List (String × String)) :
    ExecSt :=
  { pipe := initialPipe myId taskId revVer .BUILDING none, taskdb := []
    cache := cache0, lastInHash := "" }

/-- State and writes after the construction loop. -/
def builtSt (myId taskId revVer : String) (groups : List (List GTask))
    (cache0 : List (String × String)) : ExecSt × List Ev :=
  buildEntries myId (initSt myId taskId revVer cache0) groups

/-- The state as of the RUNNING write (executor.py lines 235-240): the
record read back gets status `RUNNING` and the `waiting` and new `jobs`
keys set to all task names. -/
def runningSt (myId taskId revVer : String) (groups : List (List GTask))
    (cache0 : List (String × String)) : ExecSt :=
  let be := builtSt myId taskId revVer groups cache0
  { be.1 with pipe := { be.1.pipe with
      status := .RUNNING
      waiting := allNames groups
      jobs := some (allNames groups) } }

/-- executor.py `Executor.run`.  `dagError = some msg` is the
`create_graph`/`topo_sort_parallel` failure path (the caught
`KeyError`/`ValueError`/`CycleError`); otherwise `groups` is the parallel
topological order those functions produced.  Returns the final state and
the full event trace. -/
def runExec (env : Env) (myId taskId revVer : String)
    (dagError : Option String) (groups : List (List GTask))
    (cache0 : List (String × String)) : ExecSt × List Ev :=
  match dagError with
  | some msg =>
    let pipe := initialPipe myId taskId revVer .TERMINATED (some msg)
    ({ pipe := pipe, taskdb := [], cache := cache0, lastInHash := "" },
      [.pipeW pipe])
  | none =>
    let be := builtSt myId taskId revVer groups cache0
    let st2 := runningSt myId taskId revVer groups cache0
    let evs012 := Ev.pipeW (initialPipe myId taskId revVer .BUILDING none) ::
      (be.2 ++ [Ev.pipeW st2.pipe])
    let rl := runLayers env st2 0 (groups.map (fun g => g.map (·.task)))
    if rl.2.2 then (rl.1, evs012 ++ rl.2.1)
    else
      let fp := finalPhase rl.1
      (fp.1, evs012 ++ rl.2.1 ++ fp.2)

/-- The event trace of one run. -/
def execTrace (env : Env) (myId taskId revVer : String)
    (dagError : Option String) (groups : List (List GTask))
    (cache0 : List (String × String)) : List Ev :=
  (runExec env myId taskId revVer dagError groups cache0).2

/-- The pipeline records persisted by a trace, in order. -/
def pipeWrites : List Ev → List PipeRecord
  | [] => []
  | .pipeW r :: rest => r :: pipeWrites rest
  | _ :: rest => pipeWrites rest

/-- The cache writes of a trace, in order. -/
def cacheWrites : List Ev → List (String × String)
  | [] => []
  | .cacheW k v :: rest => (k, v) :: cacheWrites rest
  | _ :: rest => cacheWrites rest

/-- The names submitted by a trace, in order. -/
def submitNames : List Ev → List String
  | [] => []
  | .submit n :: rest => n :: submitNames rest
  | _ :: rest => submitNames rest

/-- The task records written for one label, in order. -/
def taskWritesFor (label : String) : List Ev → List TaskRecord
  | [] => []
  | .taskW r :: rest =>
    if r.label = label then r :: taskWritesFor label rest
    else taskWritesFor label rest
  | _ :: rest => taskWritesFor label rest

/-! ### Concrete run scenarios used by the evaluation theorems. -/

/-- A task whose probe, submission and execution all go well. -/
def behOK (n : String) : TaskBeh :=
  { hashTaskFails := false, hashTaskError := "", submitFails := false
    submitError := "", resourceId := "rid-" ++ n, succeeded := true
    statusMessage := none, earlyExit := false }

/-- A minimal task definition. -/
def sampleTask (n : String) (outs : Option (List (String × List String))) :
    KTask :=
  { name := n, image := "img", command := .one "cmd", args := ["a1"]
    mounts := none, numGpus := some 0, nodeSelector := none
    pullPolicy := "IfNotPresent", resourceType := "Pod", numWorkers := 1
    inputs := none, outputs := outs }

/-- A concrete environment: injective stand-ins for the hash primitives,
well-behaved tasks, first-submitted-finishes-first completion order. -/
def sampleEnv : Env :=
  { sha1Hex := fun s => "sha(" ++ s ++ ")"
    hashFiles := fun fs => "files(" ++ String.intercalate "," fs ++ ")"
    containerHashes := fun n => ["img-" ++ n]
    beh := behOK
    finishOrder := fun _ => [0, 1] }

/-- Declared outputs of the first sample task. -/
def outsA : List (String × List String) := [("model", ["/data/a"])]

/-- Declared outputs of the second sample task. -/
def outsB : List (String × List String) := [("model", ["/data/b"])]

/-- Sample task `p--a` with outputs. -/
def taskA : KTask := sampleTask "p--a" (some outsA)

/-- Sample task `p--b` with outputs. -/
def taskB : KTask := sampleTask "p--b" (some outsB)

/-- Sample task `p--a` without outputs. -/
def taskA0 : KTask := sampleTask "p--a" none

/-- Sample task `p--b` without outputs. -/
def taskB0 : KTask := sampleTask "p--b" none

/-- Environment where task `p--a` fails its final status poll. -/
def failAEnv : Env :=
  { sampleEnv with
    beh := fun n =>
      if n = "p--a" then { behOK n with succeeded := false } else behOK n }

/-- Environment where `p--a` fails and `p--b` succeeds with an early-exit
request. -/
def failAEarlyBEnv : Env :=
  { sampleEnv with
    beh := fun n =>
      if n = "p--a" then { behOK n with succeeded := false }
      else { behOK n with earlyExit := true } }

/-- A cache that already holds `taskA`'s fingerprint pair, so `taskA` is a
cache hit. -/
def hitCache : List (String × String) :=
  [(hashInputs sampleEnv taskA, hashOutputs sampleEnv outsA)]

/-- Store used by the C8 counterexample: `p--a`'s record holds the string
`"^q"` under key `b`, and `p--q`'s record is the string `"a"`. -/
def c8store : StoreV :=
  [("p--a", .dict [("b", .str "^q")]), ("p--q", .str "a")]

/-- Store of the C9 scenario: `q → "a"`, `ec → "c"`,
`a.b.c → "value"` under pipeline `p`. -/
def c9store : StoreV :=
  [("p--q", .str "a"), ("p--ec", .str "c"),
   ("p--a", .dict [("b", .dict [("c", .str "value")])])]

/-- A mid-run state in which `taskA`'s record exists and the cache holds
its fingerprint pair: the witness input for the cached-task theorem. -/
def c6wSt : ExecSt :=
  { pipe := { initialPipe "p" "job" "r1" .RUNNING none with
              executing := ["p--a"], jobs := some ["p--a"] }
    taskdb := [("p--a", taskToEntry "p" "p--a" "a" taskA)]
    cache := hitCache
    lastInHash := "" }

/-! ### Predicates used by the invariant theorems. -/

/-- The partition property of a persisted pipeline record: the three task
sets are pairwise disjoint and together are exactly the `jobs` list (read
as `[]` for the two writes that precede the `jobs` key). -/
def PipePartitionOK (r : PipeRecord) : Prop :=
  r.executed.Disjoint r.executing ∧
  r.executed.Disjoint r.waiting ∧
  r.executing.Disjoint r.waiting ∧
  ∀ x, x ∈ r.jobs.getD [] ↔ x ∈ r.executed ∨ x ∈ r.executing ∨ x ∈ r.waiting

/-- The working invariant: the concatenation of the three sets has no
duplicates and is a permutation of `jobs`. -/
def PipeInv (r : PipeRecord) : Prop :=
  (r.executed ++ r.executing ++ r.waiting).Nodup ∧
  (r.executed ++ r.executing ++ r.waiting).Perm (r.jobs.getD [])

/-- Terminal pipeline statuses. -/
def isTerm (s : PStatus) : Bool :=
  s == .DONE || s == .TERMINATED

/-- Terminality is monotone along a list of persisted records: once a
record with terminal status appears, every later record is terminal. -/
def TermMono : List PipeRecord → Prop
  | [] => True
  | r :: rest =>
    (isTerm r.status = true → ∀ r' ∈ rest, isTerm r'.status = true) ∧
    TermMono rest

/-- Summary of one phase for the terminal-monotonicity proof: its writes
are terminally monotone, a terminal write forces a terminal exit status,
and a terminal entry status forces terminal writes and exit. -/
def PhaseOK (s₀ s₁ : PStatus) (w : List PipeRecord) : Prop :=
  TermMono w ∧
  (∀ r ∈ w, isTerm r.status = true → isTerm s₁ = true) ∧
  (isTerm s₀ = true →
    (∀ r ∈ w, isTerm r.status = true) ∧ isTerm s₁ = true)

/-- A run in which every task's probe, submission and execution succeed
and no task requests an early exit. -/
def GoodBeh (env : Env) : Prop :=
  ∀ n, (env.beh n).hashTaskFails = false ∧ (env.beh n).submitFails = false ∧
    (env.beh n).succeeded = true ∧ (env.beh n).earlyExit = false

/-- The flattened task names of a group list. -/
def groupNames (gs : List (List KTask)) : List String :=
  (gs.map (fun g => g.map (·.name))).flatten

/-! ### Theorems. -/

/-- C1 counterexample: two pods, the first `Failed`, the second
`Succeeded` — every phase terminal and at least one pod succeeded, so the
claim requires `SUCCEEDED`; all three handlers return the first pod's raw
status, which the task manager normalizes to `FAILED`. -/
theorem c1_counterexample :
    managerNormalize (tfjobStatus
      [⟨"Failed", none⟩, ⟨"Succeeded", none⟩]) = some .FAILED ∧
    managerNormalize (pytorchjobStatus
      [⟨"Failed", none⟩, ⟨"Succeeded", none⟩]) = some .FAILED ∧
    managerNormalize (elasticjobStatus
      [⟨"Failed", none⟩, ⟨"Succeeded", none⟩]) = some .FAILED ∧
    specMultiPodStatus [⟨"Failed", none⟩, ⟨"Succeeded", none⟩] = .SUCCEEDED ∧
    StatusType.FAILED ≠ StatusType.SUCCEEDED := by
  refine ⟨rfl, rfl, rfl, rfl, ?_⟩
  decide

/-- C1 amended: for every multi-pod kind (TFJob, PyTorchJob, ElasticJob)
and non-empty pod list, the handler's status — normalized by the task
manager — is `RUNNING` when any pod's phase is non-terminal, and when all
phases are terminal it is `SUCCEEDED` exactly when the FIRST pod's phase
is `Succeeded`, `FAILED` otherwise (not "at least one pod succeeded"). -/
theorem c1_first_pod_decides (p : PodStatus) (rest : List PodStatus) :
    managerNormalize (tfjobStatus (p :: rest)) =
      some (if (p :: rest).all (fun s => TERMINAL_PHASES.contains s.phase)
            then fromPodStatus p else .RUNNING) ∧
    managerNormalize (pytorchjobStatus (p :: rest)) =
      some (if (p :: rest).all (fun s => TERMINAL_PHASES.contains s.phase)
            then fromPodStatus p else .RUNNING) ∧
    managerNormalize (elasticjobStatus (p :: rest)) =
      some (if (p :: rest).all (fun s => TERMINAL_PHASES.contains s.phase)
            then fromPodStatus p else .RUNNING) := by
  cases h : (p :: rest).all (fun s => TERMINAL_PHASES.contains s.phase) <;>
    simp only [tfjobStatus, pytorchjobStatus, elasticjobStatus,
      managerNormalize, h] <;> simp

/-- C2 failing input: one layer with two tasks `p--a`, `p--b`, both with
declared outputs, empty cache, both succeed.  Both cache writes use
`p--b`'s input fingerprint (the stale `in_hash` loop variable left from
the last iteration of the submission loop) as the key; `p--a`'s own
fingerprint, which differs, is never written. -/
theorem c2_stale_in_hash :
    cacheWrites (execTrace sampleEnv "p" "job" "r1" none
        [[⟨taskA, "a"⟩, ⟨taskB, "b"⟩]] []) =
      [(hashInputs sampleEnv taskB, hashOutputs sampleEnv outsA),
       (hashInputs sampleEnv taskB, hashOutputs sampleEnv outsB)] ∧
    hashInputs sampleEnv taskA ≠ hashInputs sampleEnv taskB ∧
    (hashInputs sampleEnv taskA, hashOutputs sampleEnv outsA) ∉
      cacheWrites (execTrace sampleEnv "p" "job" "r1" none
        [[⟨taskA, "a"⟩, ⟨taskB, "b"⟩]] []) := by
  refine ⟨rfl, by decide, by decide⟩

/-- C3 counterexample: two single-task layers `[[p--a], [p--b]]` where
`p--a` fails.  The pipeline is persisted with status `TERMINATED` while
`executing = [p--a]` and `waiting = [p--b]` are both non-empty. -/
theorem c3_counterexample :
    (pipeWrites (execTrace failAEnv "p" "job" "r1" none
        [[⟨taskA0, "a"⟩], [⟨taskB0, "b"⟩]] [])).map
      (fun r => (r.status, r.executing, r.waiting)) =
      [(.BUILDING, [], []),
       (.RUNNING, [], ["p--a", "p--b"]),
       (.RUNNING, ["p--a"], ["p--b"]),
       (.TERMINATED, ["p--a"], ["p--b"]),
       (.TERMINATED, ["p--a"], ["p--b"])] ∧
    ∃ r ∈ pipeWrites (execTrace failAEnv "p" "job" "r1" none
        [[⟨taskA0, "a"⟩], [⟨taskB0, "b"⟩]] []),
      (r.status = .DONE ∨ r.status = .TERMINATED) ∧
      (r.executing ≠ [] ∨ r.waiting ≠ []) := by
  refine ⟨rfl, by decide⟩

/-- C5 counterexample: one layer `[p--a, p--b]` where `p--a` fails its
status poll and `p--b` succeeds with `request_early_exit = true`, drained
in that order.  The fourth persisted write has status `TERMINATED`; the
fifth changes the status field to `DONE`. -/
theorem c5_counterexample :
    (pipeWrites (execTrace failAEarlyBEnv "p" "job" "r1" none
        [[⟨taskA0, "a"⟩, ⟨taskB0, "b"⟩]] [])).map (·.status) =
      [.BUILDING, .RUNNING, .RUNNING, .TERMINATED, .DONE, .DONE] ∧
    ((pipeWrites (execTrace failAEarlyBEnv "p" "job" "r1" none
        [[⟨taskA0, "a"⟩, ⟨taskB0, "b"⟩]] [])).map (·.status)).get? 3 =
      some .TERMINATED ∧
    ((pipeWrites (execTrace failAEarlyBEnv "p" "job" "r1" none
        [[⟨taskA0, "a"⟩, ⟨taskB0, "b"⟩]] [])).map (·.status)).get? 4 =
      some .DONE ∧
    PStatus.TERMINATED ≠ PStatus.DONE := by
  refine ⟨rfl, rfl, rfl, by decide⟩

/-- C6 counterexample: a single task `p--a` with outputs whose fingerprint
pair is already in the cache.  The run records `resource_id = "Cached"`,
never submits, and moves the task to `executed` — but no write ever sets
the task's `completion_time`, falsifying the claim's "with
`completion_time` set". -/
theorem c6_counterexample :
    submitNames (execTrace sampleEnv "p" "job" "r1" none
      [[⟨taskA, "a"⟩]] hitCache) = [] ∧
    (taskWritesFor "p--a" (execTrace sampleEnv "p" "job" "r1" none
        [[⟨taskA, "a"⟩]] hitCache)).map
      (fun r => (r.resourceId, r.completionTimeSet)) =
      [(none, false), (none, false), (some "Cached", false)] ∧
    (getTask (runExec sampleEnv "p" "job" "r1" none
        [[⟨taskA, "a"⟩]] hitCache).1 "p--a").resourceId = some "Cached" ∧
    (runExec sampleEnv "p" "job" "r1" none
        [[⟨taskA, "a"⟩]] hitCache).1.pipe.executed = ["p--a"] ∧
    ¬ ∃ r ∈ taskWritesFor "p--a" (execTrace sampleEnv "p" "job" "r1" none
        [[⟨taskA, "a"⟩]] hitCache), r.completionTimeSet = true := by
  refine ⟨rfl, rfl, rfl, rfl, by decide⟩

/-- C7 failing input: a task with one volume mount.  `hash_task`'s clone
renames the task, replaces the command with `sleep 300`, and clears the
GPU request and node selector — but the `task.mount = None` line assigns a
stray attribute, so the `mounts` attribute that the pod-spec synthesis
reads keeps the original volume mounts, contradicting "volume mounts are
all cleared". -/
theorem c7_mounts_not_cleared :
    (hashTaskClone (sampleTask "p--train" none)).name = "p--train-hash" ∧
    (hashTaskClone (sampleTask "p--train" none)).command = .one "sleep" ∧
    (hashTaskClone (sampleTask "p--train" none)).args = ["300"] ∧
    (hashTaskClone
      { sampleTask "p--train" none with
        mounts := some [⟨"/data", "data-vol", "data-claim"⟩]
        numGpus := some 2
        nodeSelector := some [("gpu", "v100")] }).numGpus = none ∧
    (hashTaskClone
      { sampleTask "p--train" none with
        mounts := some [⟨"/data", "data-vol", "data-claim"⟩]
        numGpus := some 2
        nodeSelector := some [("gpu", "v100")] }).nodeSelector = none ∧
    (hashTaskClone
      { sampleTask "p--train" none with
        mounts := some [⟨"/data", "data-vol", "data-claim"⟩]
        numGpus := some 2
        nodeSelector := some [("gpu", "v100")] }).mounts =
      some [⟨"/data", "data-vol", "data-claim"⟩] ∧
    some [(⟨"/data", "data-vol", "data-claim"⟩ : Volume)] ≠
      (none : Option (List Volume)) := by
  refine ⟨rfl, rfl, rfl, rfl, rfl, rfl, by decide⟩

/-- C8 counterexample: with the store fixed, one application of
`rewrite_references` to `"^a.b"` yields `"^q"`, but a second application
resolves `"^q"` further to `"a"` — so applying twice differs from applying
once. -/
theorem c8_counterexample :
    rewriteReferences c8store "p" "^a.b" = .ok (.str "^q") ∧
    rewriteReferences c8store "p" "^q" = .ok (.str "a") ∧
    Val.str "a" ≠ Val.str "^q" := by
  refine ⟨rfl, rfl, ?_⟩
  intro h
  injection h with h'
  exact absurd h' (by decide)

/-- C9: on the store with `q → "a"`, `ec → "c"`, `a.b.c → "value"`, the
argument `"{^{^q}.b.{^ec}}"` resolves bottom-up — the inner `{^q}` to
`"a"` and `{^ec}` to `"c"`, then the whole-argument reference `^a.b.c` —
and returns `"value"`. -/
theorem c9_nested_braces :
    rewriteReferences c9store "p" "\x7b^\x7b^q\x7d.b.\x7b^ec\x7d\x7d" =
      .ok (.str "value") := rfl

/-- Association-list lookup misses every key not among the stored keys. -/
lemma lookup_eq_none_of_not_mem {β : Type} (l : List (String × β)) (k : String)
    (h : k ∉ l.map Prod.fst) : List.lookup k l = none := by
  induction l with
  | nil => rfl
  | cons p rest ih =>
    simp only [List.map_cons, List.mem_cons, not_or] at h
    obtain ⟨h1, h2⟩ := h
    obtain ⟨k', v⟩ := p
    simp only [List.lookup]
    rw [show (k == k') = false from beq_eq_false_iff_ne.mpr h1]
    exact ih h2

/-- `assocSet` makes the key it wrote visible to `lookup`. -/
lemma lookup_assocSet_self {β : Type} (l : List (String × β)) (k : String)
    (v : β) : List.lookup k (assocSet k v l) = some v := by
  induction l with
  | nil => simp [assocSet, List.lookup]
  | cons p rest ih =>
    obtain ⟨k', v'⟩ := p
    by_cases h : k' = k
    · subst h
      simp [assocSet, List.lookup]
    · simp only [assocSet, if_neg h, List.lookup]
      rw [show (k == k') = false from beq_eq_false_iff_ne.mpr (Ne.symm h)]
      exact ih

/-- `getD` form of `lookup_assocSet_self`. -/
lemma getD_lookup_assocSet {β : Type} (l : List (String × β)) (k : String)
    (v d : β) : (List.lookup k (assocSet k v l)).getD d = v := by
  rw [lookup_assocSet_self]; rfl

/-- Scanning a string with no opening brace copies it through verbatim. -/
lemma scanLoop_no_open (rw : String → Except RErr Val) (orig : List Char) :
    ∀ (cs : List Char) (i : Nat) (acc : List Val), '{' ∉ cs →
      scanLoop rw orig cs i [] acc =
        .ok (acc.reverse ++ cs.map fun c => Val.str (String.mk [c])) := by
  intro cs
  induction cs with
  | nil => intro i acc _; simp [scanLoop]
  | cons c cs ih =>
    intro i acc h
    have hc : ¬ c = '{' := fun e => h (by simp [e])
    have h2 : '{' ∉ cs := fun m => h (List.mem_cons_of_mem _ m)
    by_cases hcr : c = '}'
    · subst hcr
      simp only [scanLoop, if_neg hc, if_pos rfl]
      rw [ih (i + 1) _ h2]
      simp [List.map_cons]
    · simp only [scanLoop, if_neg hc, if_neg hcr, List.isEmpty_nil, if_pos rfl]
      rw [ih (i + 1) _ h2]
      simp [List.map_cons]
      rfl

/-- Joining per-character string parts rebuilds the string. -/
lemma joinParts_chars : ∀ cs : List Char,
    joinParts (cs.map fun c => Val.str (String.mk [c])) = .ok (String.mk cs)
  | [] => rfl
  | c :: cs => by
    simp only [List.map_cons, joinParts, joinParts_chars cs, Except.map]
    rfl

/-- C8 amended: when one application of `rewrite_references` yields a
string with no opening brace that is not itself a reference, a second
application returns it unchanged — so on such results applying twice
equals applying once.  (The counterexample shows the unrestricted claim
fails when the store value is itself a reference.) -/
theorem c8_amended (store : StoreV) (pid s t : String)
    (h1 : rewriteReferences store pid s = .ok (.str t))
    (h2 : '{' ∉ t.toList) (h3 : isReference t = false) :
    rewriteReferences store pid t = .ok (.str t) := by
  have hmk : String.mk t.toList = t := by cases t; rfl
  show rewriteFuel store pid (t.length + 1) t = .ok (.str t)
  rw [rewriteFuel]
  rw [scanLoop_no_open _ _ _ _ _ h2]
  simp only [List.reverse_nil, List.nil_append]
  rw [joinParts_chars t.toList, hmk]
  simp [h3]

/-- Witness for `c8_amended` at the concrete input `"xy"`. -/
theorem c8_amended_witness :
    (rewriteReferences ([] : StoreV) "p" "xy" = .ok (.str "xy") ∧
      '{' ∉ "xy".toList ∧ isReference "xy" = false) ∧
    rewriteReferences ([] : StoreV) "p" "xy" = .ok (.str "xy") :=
  ⟨⟨rfl, by decide, rfl⟩, c8_amended [] "p" "xy" "xy" rfl (by decide) rfl⟩

/-- C10: a key absent from the store returns `None` from both cache
backends instead of raising, and the executor's cache probe on an unseen
input fingerprint is a miss — the task is submitted (appended to the
layer's running list) and the run does not abort. -/
theorem c10_cache_miss (db coll : List (String × String)) (k : String)
    (hdb : k ∉ db.map Prod.fst) (hcoll : k ∉ coll.map Prod.fst)
    (env : Env) (st : ExecSt) (t : KTask) (outs : List (String × List String))
    (houts : t.outputs = some outs)
    (hmiss : hashInputs env t ∉ st.cache.map Prod.fst)
    (hhash : (env.beh t.name).hashTaskFails = false)
    (hsub : (env.beh t.name).submitFails = false) :
    memoryCacheGetItem db k = none ∧
    mongoCacheGetItem coll k = none ∧
    Ev.submit t.name ∈ (processTask env st t).2.1 ∧
    (processTask env st t).2.2.1 = some t ∧
    (processTask env st t).2.2.2 = false := by
  have hm : memoryCacheGetItem st.cache (hashInputs env t) = none :=
    lookup_eq_none_of_not_mem _ _ hmiss
  refine ⟨lookup_eq_none_of_not_mem _ _ hdb, ?_, ?_⟩
  · simp [mongoCacheGetItem, lookup_eq_none_of_not_mem _ _ hcoll]
  · simp [processTask, houts, hhash, hm, submitStep, hsub]

/-- Witness for `c10_cache_miss` at concrete inputs. -/
theorem c10_cache_miss_witness :
    (("z" : String) ∉ [("x", "y")].map Prod.fst ∧
      ("z" : String) ∉ ([] : List (String × String)).map Prod.fst ∧
      taskA.outputs = some outsA ∧
      hashInputs sampleEnv taskA ∉ ([] : List (String × String)).map Prod.fst ∧
      (sampleEnv.beh taskA.name).hashTaskFails = false ∧
      (sampleEnv.beh taskA.name).submitFails = false) ∧
    (memoryCacheGetItem [("x", "y")] "z" = none ∧
      mongoCacheGetItem [] "z" = none ∧
      Ev.submit taskA.name ∈
        (processTask sampleEnv { c6wSt with cache := [] } taskA).2.1 ∧
      (processTask sampleEnv { c6wSt with cache := [] } taskA).2.2.1 =
        some taskA ∧
      (processTask sampleEnv { c6wSt with cache := [] } taskA).2.2.2 = false) :=
  ⟨⟨by decide, by decide, rfl, by decide, rfl, rfl⟩,
    c10_cache_miss [("x", "y")] [] "z" (by decide) (by decide) sampleEnv
      { c6wSt with cache := [] } taskA outsA rfl (by decide) rfl rfl⟩

/-- C6 amended: a task with outputs whose fingerprint pair is in the cache
is never submitted, gets `resource_id = "Cached"`, and is moved from
`executing` to `executed` — but none of its writes sets
`completion_time`. -/
theorem c6_amended (env : Env) (st : ExecSt) (t : KTask)
    (outs : List (String × List String))
    (houts : t.outputs = some outs)
    (hhash : (env.beh t.name).hashTaskFails = false)
    (hhit : memoryCacheGetItem st.cache (hashInputs env t) =
      some (hashOutputs env outs))
    (hlabel : (getTask st t.name).label = t.name)
    (hct : (getTask st t.name).completionTimeSet = false) :
    (processTask env st t).2.2.1 = none ∧
    (processTask env st t).2.2.2 = false ∧
    submitNames (processTask env st t).2.1 = [] ∧
    (∀ r ∈ taskWritesFor t.name (processTask env st t).2.1,
      r.completionTimeSet = false) ∧
    (∃ r ∈ taskWritesFor t.name (processTask env st t).2.1,
      r.resourceId = some "Cached") ∧
    (processTask env st t).1.pipe.executing = st.pipe.executing.erase t.name ∧
    (processTask env st t).1.pipe.executed = st.pipe.executed ++ [t.name] ∧
    (processTask env st t).1.pipe.status = st.pipe.status := by
  simp only [getTask] at hlabel hct
  simp [processTask, houts, hhash, hhit, getTask, getD_lookup_assocSet,
    submitNames, taskWritesFor, hlabel, hct]

/-- `pipeWrites` distributes over concatenation. -/
lemma pipeWrites_append : ∀ (a b : List Ev),
    pipeWrites (a ++ b) = pipeWrites a ++ pipeWrites b
  | [], _ => rfl
  | .pipeW r :: rest, b => by
    simp [pipeWrites, pipeWrites_append rest b]
  | .taskW _ :: rest, b => by
    simp [pipeWrites, pipeWrites_append rest b]
  | .submit _ :: rest, b => by
    simp [pipeWrites, pipeWrites_append rest b]
  | .cacheW _ _ :: rest, b => by
    simp [pipeWrites, pipeWrites_append rest b]

/-- `pipeWrites` on the empty trace. -/
lemma pipeWrites_nil : pipeWrites [] = [] := rfl

/-- `pipeWrites` past a leading pipeline write. -/
lemma pipeWrites_cons_pipeW (r : PipeRecord) (l : List Ev) :
    pipeWrites (Ev.pipeW r :: l) = r :: pipeWrites l := rfl

/-- Appending terminally monotone write lists stays monotone when a
terminal write in the first part forces the second part terminal. -/
lemma termMono_append {w₁ w₂ : List PipeRecord}
    (h₁ : TermMono w₁) (h₂ : TermMono w₂)
    (h₁₂ : (∃ r ∈ w₁, isTerm r.status = true) →
      ∀ r ∈ w₂, isTerm r.status = true) :
    TermMono (w₁ ++ w₂) := by
  induction w₁ with
  | nil => exact h₂
  | cons r w ih =>
    obtain ⟨hr, hw⟩ := h₁
    refine ⟨?_, ih hw ?_⟩
    · intro ht r' hr'
      rcases List.mem_append.mp hr' with h | h
      · exact hr ht r' h
      · exact h₁₂ ⟨r, List.mem_cons_self r w, ht⟩ r' h
    · rintro ⟨r', hr', ht'⟩
      exact h₁₂ ⟨r', List.mem_cons_of_mem r hr', ht'⟩

/-- Sequential composition of phases preserves `PhaseOK`. -/
lemma phaseOK_comp {s₀ s₁ s₂ : PStatus} {w₁ w₂ : List PipeRecord}
    (h₁ : PhaseOK s₀ s₁ w₁) (h₂ : PhaseOK s₁ s₂ w₂) :
    PhaseOK s₀ s₂ (w₁ ++ w₂) := by
  obtain ⟨m₁, e₁, t₁⟩ := h₁
  obtain ⟨m₂, e₂, t₂⟩ := h₂
  refine ⟨termMono_append m₁ m₂ ?_, ?_, ?_⟩
  · rintro ⟨r, hr, hterm⟩ r' hr'
    exact (t₂ (e₁ r hr hterm)).1 r' hr'
  · intro r hr hterm
    rcases List.mem_append.mp hr with h | h
    · exact (t₂ (e₁ r h hterm)).2
    · exact e₂ r h hterm
  · intro h₀
    obtain ⟨w₁all, s₁t⟩ := t₁ h₀
    obtain ⟨w₂all, s₂t⟩ := t₂ s₁t
    exact ⟨fun r hr => (List.mem_append.mp hr).elim (w₁all r) (w₂all r), s₂t⟩

/-- A phase with no pipeline writes. -/
lemma phaseOK_nil {s₀ s₁ : PStatus} (h : isTerm s₀ = true → isTerm s₁ = true) :
    PhaseOK s₀ s₁ [] :=
  ⟨trivial, by simp, fun h₀ => ⟨by simp, h h₀⟩⟩

/-- A phase persisting exactly one record, carrying the exit status. -/
lemma phaseOK_single {s₀ s₁ : PStatus} (r : PipeRecord) (hr : r.status = s₁)
    (h : isTerm s₀ = true → isTerm s₁ = true) : PhaseOK s₀ s₁ [r] := by
  refine ⟨⟨fun _ r' hr' => absurd hr' (List.not_mem_nil r'), trivial⟩, ?_, ?_⟩
  · intro r' hr' ht
    rcases List.mem_singleton.mp hr' with h'
    subst h'
    rwa [hr] at ht
  · intro h₀
    refine ⟨?_, h h₀⟩
    intro r' hr'
    rcases List.mem_singleton.mp hr' with h'
    subst h'
    rw [hr]
    exact h h₀

/-- `submitStep` either leaves the status alone or persists
`TERMINATED`. -/
lemma submitStep_phaseOK (env : Env) (st : ExecSt) (t : KTask) :
    PhaseOK st.pipe.status (submitStep env st t).1.pipe.status
      (pipeWrites (submitStep env st t).2.1) := by
  unfold submitStep
  by_cases h : (env.beh t.name).submitFails = true
  · rw [if_pos h]
    exact phaseOK_single _ rfl (fun _ => rfl)
  · rw [if_neg h]
    exact phaseOK_nil id

/-- The per-task submission body preserves terminal monotonicity. -/
lemma processTask_phaseOK (env : Env) (st : ExecSt) (t : KTask) :
    PhaseOK st.pipe.status (processTask env st t).1.pipe.status
      (pipeWrites (processTask env st t).2.1) := by
  unfold processTask
  cases houts : t.outputs with
  | none =>
    exact submitStep_phaseOK env _ t
  | some outs =>
    simp only
    by_cases hhf : (env.beh t.name).hashTaskFails = true
    · rw [if_pos hhf]
      exact phaseOK_single _ rfl (fun _ => rfl)
    · rw [if_neg hhf]
      by_cases hhit : memoryCacheGetItem st.cache (hashInputs env t) =
          some (hashOutputs env outs)
      · rw [if_pos hhit]
        exact phaseOK_single _ rfl id
      · rw [if_neg hhit]
        exact submitStep_phaseOK env _ t

/-- The submission loop preserves terminal monotonicity. -/
lemma submitPhase_phaseOK (env : Env) : ∀ (g : List KTask) (st : ExecSt),
    PhaseOK st.pipe.status (submitPhase env st g).1.pipe.status
      (pipeWrites (submitPhase env st g).2.1) := by
  intro g
  induction g with
  | nil => intro st; exact phaseOK_nil id
  | cons t rest ih =>
    intro st
    simp only [submitPhase]
    by_cases hab : (processTask env st t).2.2.2 = true
    · rw [if_pos hab]
      exact processTask_phaseOK env st t
    · rw [if_neg hab]
      simp only [pipeWrites_append]
      exact phaseOK_comp (processTask_phaseOK env st t)
        (ih (processTask env st t).1)

/-- The per-completion body preserves terminal monotonicity. -/
lemma processCompletion_phaseOK (env : Env) (st : ExecSt) (t : KTask) :
    PhaseOK st.pipe.status (processCompletion env st t).1.pipe.status
      (pipeWrites (processCompletion env st t).2) := by
  unfold processCompletion
  by_cases hsucc : ¬ (env.beh t.name).succeeded = true
  · rw [if_pos hsucc]
    exact phaseOK_single _ rfl (fun _ => rfl)
  · rw [if_neg hsucc]
    by_cases hee : (env.beh t.name).earlyExit = true
    · rw [if_pos hee]
      cases houts : t.outputs
      · exact phaseOK_single _ rfl (fun _ => rfl)
      · exact phaseOK_single _ rfl (fun _ => rfl)
    · rw [if_neg hee]
      cases houts : t.outputs
      · exact phaseOK_single _ rfl id
      · exact phaseOK_single _ rfl id

/-- The completion drain preserves terminal monotonicity. -/
lemma drainPhase_phaseOK (env : Env) : ∀ (order : List KTask) (st : ExecSt),
    PhaseOK st.pipe.status (drainPhase env st order).1.pipe.status
      (pipeWrites (drainPhase env st order).2) := by
  intro order
  induction order with
  | nil => intro st; exact phaseOK_nil id
  | cons t rest ih =>
    intro st
    simp only [drainPhase, pipeWrites_append]
    exact phaseOK_comp (processCompletion_phaseOK env st t)
      (ih (processCompletion env st t).1)

/-- The layer-start write carries the unchanged status. -/
lemma layerStart_phaseOK (st : ExecSt) (g : List KTask)
    (rest : List (List KTask)) :
    PhaseOK st.pipe.status (layerStart st g rest).1.pipe.status
      (pipeWrites (layerStart st g rest).2) := by
  simp only [layerStart]
  by_cases h : st.pipe.executing.isEmpty = true
  · rw [if_pos h]
    exact phaseOK_single _ rfl id
  · rw [if_neg h]
    exact phaseOK_single _ rfl id

/-- The layer loop preserves terminal monotonicity. -/
lemma runLayers_phaseOK (env : Env) : ∀ (gs : List (List KTask)) (st : ExecSt)
    (k : Nat),
    PhaseOK st.pipe.status (runLayers env st k gs).1.pipe.status
      (pipeWrites (runLayers env st k gs).2.1) := by
  intro gs
  induction gs with
  | nil => intro st k; exact phaseOK_nil id
  | cons g rest ih =>
    intro st k
    simp only [runLayers]
    have h1 := layerStart_phaseOK st g rest
    have h2 := submitPhase_phaseOK env g (layerStart st g rest).1
    have h12 := @phaseOK_comp st.pipe.status
      (layerStart st g rest).1.pipe.status
      (submitPhase env (layerStart st g rest).1 g).1.pipe.status _ _ h1 h2
    by_cases hab : (submitPhase env (layerStart st g rest).1 g).2.2.2 = true
    · rw [if_pos hab]
      simp only [pipeWrites_append]
      exact h12
    · rw [if_neg hab]
      have h3 := drainPhase_phaseOK env
        (pickPerm (env.finishOrder k)
          (submitPhase env (layerStart st g rest).1 g).2.2.1)
        (submitPhase env (layerStart st g rest).1 g).1
      have h123 := @phaseOK_comp st.pipe.status
        (submitPhase env (layerStart st g rest).1 g).1.pipe.status
        (drainPhase env (submitPhase env (layerStart st g rest).1 g).1
          (pickPerm (env.finishOrder k)
            (submitPhase env (layerStart st g rest).1 g).2.2.1)).1.pipe.status
        _ _ h12 h3
      by_cases hterm :
          (drainPhase env (submitPhase env (layerStart st g rest).1 g).1
            (pickPerm (env.finishOrder k)
              (submitPhase env (layerStart st g rest).1 g).2.2.1)).1.pipe.status =
            .DONE ∨
          (drainPhase env (submitPhase env (layerStart st g rest).1 g).1
            (pickPerm (env.finishOrder k)
              (submitPhase env (layerStart st g rest).1 g).2.2.1)).1.pipe.status =
            .TERMINATED
      · rw [if_pos hterm]
        simp only [pipeWrites_append]
        exact h123
      · rw [if_neg hterm]
        have h4 := ih (drainPhase env
          (submitPhase env (layerStart st g rest).1 g).1
          (pickPerm (env.finishOrder k)
            (submitPhase env (layerStart st g rest).1 g).2.2.1)).1 (k + 1)
        simp only [pipeWrites_append]
        exact @phaseOK_comp st.pipe.status
          (drainPhase env (submitPhase env (layerStart st g rest).1 g).1
            (pickPerm (env.finishOrder k)
              (submitPhase env (layerStart st g rest).1 g).2.2.1)).1.pipe.status
          (runLayers env
            (drainPhase env (submitPhase env (layerStart st g rest).1 g).1
              (pickPerm (env.finishOrder k)
                (submitPhase env (layerStart st g rest).1 g).2.2.1)).1
            (k + 1) rest).1.pipe.status _ _ h123 h4

/-- The final write keeps a terminal status terminal. -/
lemma finalPhase_phaseOK (st : ExecSt) :
    PhaseOK st.pipe.status (finalPhase st).1.pipe.status
      (pipeWrites (finalPhase st).2) := by
  simp only [finalPhase]
  by_cases h1 : ¬ st.pipe.executing.isEmpty = true ∧ st.pipe.status ≠ .TERMINATED
  · rw [if_pos h1]
    by_cases h2 : st.pipe.status ≠ .TERMINATED
    · rw [if_pos h2]
      exact phaseOK_single _ rfl (fun _ => rfl)
    · rw [if_neg h2]
      exact phaseOK_single _ rfl id
  · rw [if_neg h1]
    by_cases h2 : st.pipe.status ≠ .TERMINATED
    · rw [if_pos h2]
      exact phaseOK_single _ rfl (fun _ => rfl)
    · rw [if_neg h2]
      exact phaseOK_single _ rfl id

/-- The construction loop for one group writes no pipeline records and
leaves the pipeline record untouched. -/
lemma buildGroupEntries_pipe (myId : String) : ∀ (g : List GTask) (st : ExecSt),
    (buildGroupEntries myId st g).1.pipe = st.pipe ∧
    pipeWrites (buildGroupEntries myId st g).2 = [] := by
  intro g
  induction g with
  | nil => intro st; exact ⟨rfl, rfl⟩
  | cons gt rest ih =>
    intro st
    simp only [buildGroupEntries]
    constructor
    · exact (ih _).1
    · simp only [pipeWrites]
      exact (ih _).2

/-- The construction loop writes no pipeline records and leaves the
pipeline record untouched. -/
lemma buildEntries_pipe (myId : String) : ∀ (gs : List (List GTask))
    (st : ExecSt),
    (buildEntries myId st gs).1.pipe = st.pipe ∧
    pipeWrites (buildEntries myId st gs).2 = [] := by
  intro gs
  induction gs with
  | nil => intro st; exact ⟨rfl, rfl⟩
  | cons g rest ih =>
    intro st
    simp only [buildEntries]
    constructor
    · rw [(ih _).1, (buildGroupEntries_pipe myId g st).1]
    · rw [pipeWrites_append, (ih _).2, (buildGroupEntries_pipe myId g st).2]
      rfl

/-- C5 amended: for every run, once a pipeline record with terminal status
(`DONE` or `TERMINATED`) has been persisted, every later persisted record
also has terminal status — the run never reverts to `BUILDING` or
`RUNNING`.  (The counterexample shows the stronger original claim — that
the terminal value itself never changes — fails while the failing layer
drains.) -/
theorem c5_amended (env : Env) (myId taskId revVer : String)
    (dagError : Option String) (groups : List (List GTask))
    (cache0 : List (String × String)) :
    TermMono (pipeWrites
      (execTrace env myId taskId revVer dagError groups cache0)) := by
  unfold execTrace runExec
  cases dagError with
  | some msg =>
    exact ⟨fun _ r' hr' => absurd hr' (List.not_mem_nil r'), trivial⟩
  | none =>
    simp only
    have htr : pipeWrites
        (Ev.pipeW (initialPipe myId taskId revVer .BUILDING none) ::
          ((builtSt myId taskId revVer groups cache0).2 ++
            [Ev.pipeW (runningSt myId taskId revVer groups cache0).pipe])) =
        [initialPipe myId taskId revVer .BUILDING none] ++
          [(runningSt myId taskId revVer groups cache0).pipe] := by
      have hb := (buildEntries_pipe myId groups
        (initSt myId taskId revVer cache0)).2
      simp only [pipeWrites, pipeWrites_append]
      rw [show pipeWrites (builtSt myId taskId revVer groups cache0).2 = []
        from hb]
      rfl
    have hpre : PhaseOK PStatus.BUILDING
        (runningSt myId taskId revVer groups cache0).pipe.status
        ([initialPipe myId taskId revVer .BUILDING none] ++
          [(runningSt myId taskId revVer groups cache0).pipe]) :=
      @phaseOK_comp PStatus.BUILDING
        (initialPipe myId taskId revVer .BUILDING none).status
        (runningSt myId taskId revVer groups cache0).pipe.status _ _
        (phaseOK_single _ rfl (fun h => Bool.noConfusion h))
        (phaseOK_single _ rfl (fun h => Bool.noConfusion h))
    have hrl := runLayers_phaseOK env (groups.map (fun g => g.map (·.task)))
      (runningSt myId taskId revVer groups cache0) 0
    have hprerl := @phaseOK_comp PStatus.BUILDING
      (runningSt myId taskId revVer groups cache0).pipe.status
      (runLayers env (runningSt myId taskId revVer groups cache0) 0
        (groups.map (fun g => g.map (·.task)))).1.pipe.status _ _ hpre hrl
    by_cases hab : (runLayers env (runningSt myId taskId revVer groups cache0)
        0 (groups.map (fun g => g.map (·.task)))).2.2 = true
    · rw [if_pos hab]
      rw [pipeWrites_append, htr]
      exact hprerl.1
    · rw [if_neg hab]
      have hfp := finalPhase_phaseOK
        (runLayers env (runningSt myId taskId revVer groups cache0) 0
          (groups.map (fun g => g.map (·.task)))).1
      rw [pipeWrites_append, pipeWrites_append, htr]
      exact (phaseOK_comp hprerl hfp).1

/-- Under a good oracle, the per-task submission body neither aborts nor
touches status or waiting. -/
lemma processTask_good (env : Env) (st : ExecSt) (t : KTask)
    (hg : GoodBeh env) :
    (processTask env st t).1.pipe.status = st.pipe.status ∧
    (processTask env st t).1.pipe.waiting = st.pipe.waiting ∧
    (processTask env st t).2.2.2 = false ∧
    (∀ r ∈ pipeWrites (processTask env st t).2.1,
      r.status = st.pipe.status ∧ r.waiting = st.pipe.waiting) := by
  unfold processTask submitStep
  rw [show (env.beh t.name).hashTaskFails = false from (hg t.name).1]
  rw [show (env.beh t.name).submitFails = false from (hg t.name).2.1]
  cases houts : t.outputs with
  | none =>
    exact ⟨rfl, rfl, rfl, fun r hr => absurd hr (List.not_mem_nil r)⟩
  | some outs =>
    simp only [Bool.false_eq_true, if_false]
    by_cases hhit : memoryCacheGetItem st.cache (hashInputs env t) =
        some (hashOutputs env outs)
    · rw [if_pos hhit]
      refine ⟨rfl, rfl, rfl, ?_⟩
      intro r hr
      rcases List.mem_singleton.mp hr with rfl
      exact ⟨rfl, rfl⟩
    · rw [if_neg hhit]
      exact ⟨rfl, rfl, rfl, fun r hr => absurd hr (List.not_mem_nil r)⟩

/-- Under a good oracle, the submission loop neither aborts nor touches
status or waiting. -/
lemma submitPhase_good (env : Env) (hg : GoodBeh env) :
    ∀ (g : List KTask) (st : ExecSt),
    (submitPhase env st g).1.pipe.status = st.pipe.status ∧
    (submitPhase env st g).1.pipe.waiting = st.pipe.waiting ∧
    (submitPhase env st g).2.2.2 = false ∧
    (∀ r ∈ pipeWrites (submitPhase env st g).2.1,
      r.status = st.pipe.status ∧ r.waiting = st.pipe.waiting) := by
  intro g
  induction g with
  | nil =>
    intro st
    exact ⟨rfl, rfl, rfl, fun r hr => absurd hr (List.not_mem_nil r)⟩
  | cons t rest ih =>
    intro st
    simp only [submitPhase]
    obtain ⟨pa, pb, pc, pd⟩ := processTask_good env st t hg
    rw [pc, if_neg Bool.false_ne_true]
    obtain ⟨qa, qb, qc, qd⟩ := ih (processTask env st t).1
    refine ⟨by rw [qa, pa], by rw [qb, pb], qc, ?_⟩
    intro r hr
    rw [pipeWrites_append] at hr
    rcases List.mem_append.mp hr with h | h
    · exact pd r h
    · obtain ⟨h1, h2⟩ := qd r h
      exact ⟨by rw [h1, pa], by rw [h2, pb]⟩

/-- Under a good oracle, the per-completion body never terminates the
pipeline and never touches status or waiting. -/
lemma processCompletion_good (env : Env) (st : ExecSt) (t : KTask)
    (hg : GoodBeh env) :
    (processCompletion env st t).1.pipe.status = st.pipe.status ∧
    (processCompletion env st t).1.pipe.waiting = st.pipe.waiting ∧
    (∀ r ∈ pipeWrites (processCompletion env st t).2,
      r.status = st.pipe.status ∧ r.waiting = st.pipe.waiting) := by
  unfold processCompletion
  rw [show (env.beh t.name).succeeded = true from (hg t.name).2.2.1]
  rw [show (env.beh t.name).earlyExit = false from (hg t.name).2.2.2]
  simp only [not_true, Bool.false_eq_true, if_false]
  cases houts : t.outputs with
  | none =>
    refine ⟨rfl, rfl, ?_⟩
    intro r hr
    rcases List.mem_singleton.mp hr with rfl
    exact ⟨rfl, rfl⟩
  | some outs =>
    refine ⟨rfl, rfl, ?_⟩
    intro r hr
    rcases List.mem_singleton.mp hr with rfl
    exact ⟨rfl, rfl⟩

/-- Under a good oracle, the drain loop never touches status or
waiting. -/
lemma drainPhase_good (env : Env) (hg : GoodBeh env) :
    ∀ (order : List KTask) (st : ExecSt),
    (drainPhase env st order).1.pipe.status = st.pipe.status ∧
    (drainPhase env st order).1.pipe.waiting = st.pipe.waiting ∧
    (∀ r ∈ pipeWrites (drainPhase env st order).2,
      r.status = st.pipe.status ∧ r.waiting = st.pipe.waiting) := by
  intro order
  induction order with
  | nil =>
    intro st
    exact ⟨rfl, rfl, fun r hr => absurd hr (List.not_mem_nil r)⟩
  | cons t rest ih =>
    intro st
    simp only [drainPhase]
    obtain ⟨pa, pb, pc⟩ := processCompletion_good env st t hg
    obtain ⟨qa, qb, qc⟩ := ih (processCompletion env st t).1
    refine ⟨by rw [qa, pa], by rw [qb, pb], ?_⟩
    intro r hr
    rw [pipeWrites_append] at hr
    rcases List.mem_append.mp hr with h | h
    · exact pc r h
    · obtain ⟨h1, h2⟩ := qc r h
      exact ⟨by rw [h1, pa], by rw [h2, pb]⟩

/-- The layer-start write: status unchanged, waiting set to the later
layers. -/
lemma layerStart_fields (st : ExecSt) (g : List KTask)
    (rest : List (List KTask)) :
    (layerStart st g rest).1.pipe.status = st.pipe.status ∧
    (layerStart st g rest).1.pipe.waiting =
      (rest.map (fun x => x.map (·.name))).flatten ∧
    pipeWrites (layerStart st g rest).2 = [(layerStart st g rest).1.pipe] := by
  simp only [layerStart]
  by_cases h : st.pipe.executing.isEmpty = true
  · rw [if_pos h]
    exact ⟨rfl, trivial, rfl⟩
  · rw [if_neg h]
    exact ⟨rfl, trivial, rfl⟩

/-- Under a good oracle a `RUNNING` pipeline runs all layers: every write
stays `RUNNING`, the loop never aborts, and `waiting` is empty when it
returns. -/
lemma runLayers_good (env : Env) (hg : GoodBeh env) :
    ∀ (gs : List (List KTask)) (st : ExecSt) (k : Nat),
    st.pipe.status = .RUNNING →
    st.pipe.waiting = (gs.map (fun g => g.map (·.name))).flatten →
    (∀ r ∈ pipeWrites (runLayers env st k gs).2.1, r.status = .RUNNING) ∧
    (runLayers env st k gs).1.pipe.status = .RUNNING ∧
    (runLayers env st k gs).1.pipe.waiting = [] ∧
    (runLayers env st k gs).2.2 = false := by
  intro gs
  induction gs with
  | nil =>
    intro st k hs hw
    exact ⟨fun r hr => absurd hr (List.not_mem_nil r), hs, hw, rfl⟩
  | cons g rest ih =>
    intro st k hs hw
    simp only [runLayers]
    obtain ⟨la, lb, lc⟩ := layerStart_fields st g rest
    obtain ⟨sa, sb, sc, sd⟩ := submitPhase_good env hg g (layerStart st g rest).1
    rw [sc, if_neg Bool.false_ne_true]
    obtain ⟨da, db, dc⟩ := drainPhase_good env hg
      (pickPerm (env.finishOrder k)
        (submitPhase env (layerStart st g rest).1 g).2.2.1)
      (submitPhase env (layerStart st g rest).1 g).1
    have hstat3 : (drainPhase env (submitPhase env (layerStart st g rest).1 g).1
        (pickPerm (env.finishOrder k)
          (submitPhase env (layerStart st g rest).1 g).2.2.1)).1.pipe.status =
        .RUNNING := by rw [da, sa, la, hs]
    have hterm : ¬ ((drainPhase env
        (submitPhase env (layerStart st g rest).1 g).1
        (pickPerm (env.finishOrder k)
          (submitPhase env (layerStart st g rest).1 g).2.2.1)).1.pipe.status =
          .DONE ∨
        (drainPhase env (submitPhase env (layerStart st g rest).1 g).1
        (pickPerm (env.finishOrder k)
          (submitPhase env (layerStart st g rest).1 g).2.2.1)).1.pipe.status =
          .TERMINATED) := by
      rw [hstat3]
      rintro (h | h) <;> exact PStatus.noConfusion h
    rw [if_neg hterm]
    have hwait3 : (drainPhase env (submitPhase env (layerStart st g rest).1 g).1
        (pickPerm (env.finishOrder k)
          (submitPhase env (layerStart st g rest).1 g).2.2.1)).1.pipe.waiting =
        (rest.map (fun x => x.map (·.name))).flatten := by
      rw [db, sb, lb]
    obtain ⟨ra, rb, rc, rd⟩ := ih
      (drainPhase env (submitPhase env (layerStart st g rest).1 g).1
        (pickPerm (env.finishOrder k)
          (submitPhase env (layerStart st g rest).1 g).2.2.1)).1
      (k + 1) hstat3 hwait3
    refine ⟨?_, rb, rc, rd⟩
    intro r hr
    rw [pipeWrites_append, pipeWrites_append, pipeWrites_append] at hr
    rcases List.mem_append.mp hr with hr' | h4
    · rcases List.mem_append.mp hr' with hr'' | h3
      · rcases List.mem_append.mp hr'' with h1 | h2
        · rw [lc] at h1
          rcases List.mem_singleton.mp h1 with rfl
          rw [la, hs]
        · obtain ⟨h, _⟩ := sd r h2
          rw [h, la, hs]
      · obtain ⟨h, _⟩ := dc r h3
        rw [h, sa, la, hs]
    · exact ra r h4

/-- The final write when the pipeline is not `TERMINATED`: status becomes
`DONE`, `executing` is flushed to empty, `waiting` is untouched. -/
lemma finalPhase_fields (st : ExecSt) (h : st.pipe.status ≠ .TERMINATED) :
    (finalPhase st).1.pipe.status = .DONE ∧
    (finalPhase st).1.pipe.executing = [] ∧
    (finalPhase st).1.pipe.waiting = st.pipe.waiting ∧
    pipeWrites (finalPhase st).2 = [(finalPhase st).1.pipe] := by
  simp only [finalPhase]
  by_cases h1 : ¬ st.pipe.executing.isEmpty = true ∧ st.pipe.status ≠ .TERMINATED
  · rw [if_pos h1, if_pos h]
    exact ⟨rfl, rfl, rfl, rfl⟩
  · rw [if_neg h1, if_pos h]
    refine ⟨rfl, ?_, rfl, rfl⟩
    have h2 : st.pipe.executing.isEmpty = true := by
      by_contra hne
      exact h1 ⟨hne, h⟩
    exact List.isEmpty_iff.mp h2

/-- C3 amended: in a run where every task succeeds, none requests an early
exit, and no submit or hash-probe error occurs, every persisted pipeline
record with status `DONE` or `TERMINATED` has empty `executing` and empty
`waiting` (only the final `DONE` write is terminal, and the final write
flushes `executing` while `waiting` is already empty).  The counterexample
shows this fails for general runs: a failure leaves the failed task in
`executing` and later layers in `waiting`. -/
theorem c3_amended (env : Env) (myId taskId revVer : String)
    (dagError : Option String) (groups : List (List GTask))
    (cache0 : List (String × String)) (hg : GoodBeh env) :
    ∀ r ∈ pipeWrites (execTrace env myId taskId revVer dagError groups cache0),
      (r.status = .DONE ∨ r.status = .TERMINATED) →
      r.executing = [] ∧ r.waiting = [] := by
  unfold execTrace runExec
  cases dagError with
  | some msg =>
    intro r hr _
    rcases List.mem_singleton.mp hr with rfl
    exact ⟨rfl, rfl⟩
  | none =>
    simp only
    have hrun : (runningSt myId taskId revVer groups cache0).pipe.status =
        .RUNNING := rfl
    have hwait : (runningSt myId taskId revVer groups cache0).pipe.waiting =
        ((groups.map (fun g => g.map (·.task))).map
          (fun g => g.map (·.name))).flatten := by
      show allNames groups = _
      simp [allNames, List.map_map, Function.comp_def]
    obtain ⟨ra, rb, rc, rd⟩ := runLayers_good env hg
      (groups.map (fun g => g.map (·.task)))
      (runningSt myId taskId revVer groups cache0) 0 hrun hwait
    rw [rd, if_neg Bool.false_ne_true]
    have hne : (runLayers env (runningSt myId taskId revVer groups cache0) 0
        (groups.map (fun g => g.map (·.task)))).1.pipe.status ≠
        .TERMINATED := by
      rw [rb]
      exact fun h => PStatus.noConfusion h
    obtain ⟨fa, fb, fc, fd⟩ := finalPhase_fields
      (runLayers env (runningSt myId taskId revVer groups cache0) 0
        (groups.map (fun g => g.map (·.task)))).1 hne
    have hb2 : pipeWrites (builtSt myId taskId revVer groups cache0).2 = [] :=
      (buildEntries_pipe myId groups (initSt myId taskId revVer cache0)).2
    intro r hr hterm
    simp only [pipeWrites_append, pipeWrites_cons_pipeW, pipeWrites_nil, hb2,
      fd, List.nil_append, List.append_nil, List.cons_append,
      List.mem_cons, List.mem_append, List.mem_singleton] at hr
    rcases hr with rfl | rfl | h3 | rfl | h0
    · rcases hterm with h | h <;> exact absurd h (by simp [initialPipe])
    · rcases hterm with h | h <;> rw [hrun] at h <;> exact PStatus.noConfusion h
    · have := ra r h3
      rcases hterm with h | h <;> rw [this] at h <;> exact PStatus.noConfusion h
    · exact ⟨fb, by rw [fc, rc]⟩
    · exact absurd h0 (List.not_mem_nil r)

/-- `PipeInv` gives the claim's partition statement. -/
lemma pipeInv_partition (r : PipeRecord) (h : PipeInv r) : PipePartitionOK r := by
  obtain ⟨hnd, hperm⟩ := h
  rw [List.nodup_append] at hnd
  obtain ⟨hnd1, hnd2, hdis⟩ := hnd
  rw [List.nodup_append] at hnd1
  rw [List.disjoint_append_left] at hdis
  refine ⟨hnd1.2.2, hdis.1, hdis.2, ?_⟩
  intro x
  rw [← hperm.mem_iff]
  simp [List.mem_append, or_assoc]

/-- Moving one task from `executing` to `executed` preserves `PipeInv`. -/
lemma pipeInv_move (r : PipeRecord) (t : String) (ht : t ∈ r.executing)
    (h : PipeInv r) :
    PipeInv { r with
      executing := r.executing.erase t
      executed := r.executed ++ [t] } := by
  obtain ⟨hnd, hperm⟩ := h
  have h1 : r.executing.Perm (t :: r.executing.erase t) :=
    List.perm_cons_erase ht
  have hperm2 : (r.executed ++ [t] ++ r.executing.erase t ++ r.waiting).Perm
      (r.executed ++ r.executing ++ r.waiting) := by
    have heq : r.executed ++ [t] ++ r.executing.erase t ++ r.waiting =
        r.executed ++ (t :: r.executing.erase t) ++ r.waiting := by
      simp [List.append_assoc]
    rw [heq]
    exact ((h1.symm).append_left r.executed).append_right r.waiting
  exact ⟨hperm2.symm.nodup hnd, hperm2.trans hperm⟩

/-- `removeAt?` returns a cons-permutation of its input. -/
lemma removeAt_perm {α : Type} : ∀ (l : List α) (i : Nat) (a : α)
    (rest : List α), removeAt? l i = some (a, rest) → l.Perm (a :: rest)
  | [], _, a, rest => by
    intro h
    exact absurd h (by simp [removeAt?])
  | b :: l, 0, a, rest => by
    intro h
    simp only [removeAt?, Option.some.injEq, Prod.mk.injEq] at h
    obtain ⟨rfl, rfl⟩ := h
    exact List.Perm.refl _
  | b :: l, i + 1, a, rest => by
    intro h
    simp only [removeAt?] at h
    rcases ho : removeAt? l i with _ | ⟨a', rest'⟩
    · rw [ho] at h
      exact absurd h (by simp)
    · rw [ho] at h
      simp at h
      obtain ⟨rfl, rfl⟩ := h
      have hp := removeAt_perm l i a' rest' ho
      exact (hp.cons b).trans (List.Perm.swap a' b rest')

/-- `pickPerm` yields a permutation of its input for any index list. -/
lemma pickPerm_perm {α : Type} : ∀ (idxs : List Nat) (l : List α),
    (pickPerm idxs l).Perm l
  | [], l => List.Perm.refl l
  | i :: is, l => by
    simp only [pickPerm]
    rcases ho : removeAt? l i with _ | ⟨a, rest⟩
    · exact pickPerm_perm is l
    · have h1 := removeAt_perm l i a rest ho
      exact ((pickPerm_perm is rest).cons a).trans h1.symm

/-- `submitStep` leaves the pipeline's task sets untouched. -/
lemma submitStep_inv (env : Env) (st : ExecSt) (t : KTask)
    (hinv : PipeInv st.pipe) :
    (∀ r ∈ pipeWrites (submitStep env st t).2.1, PipeInv r) ∧
    PipeInv (submitStep env st t).1.pipe ∧
    (submitStep env st t).1.pipe.waiting = st.pipe.waiting ∧
    (submitStep env st t).1.pipe.jobs = st.pipe.jobs ∧
    (submitStep env st t).1.pipe.executing = st.pipe.executing ∧
    (∀ u, (submitStep env st t).2.2.1 = some u → u = t) := by
  unfold submitStep
  by_cases h : (env.beh t.name).submitFails = true
  · rw [if_pos h]
    refine ⟨?_, hinv, rfl, rfl, rfl, ?_⟩
    · intro r hr
      rcases List.mem_singleton.mp hr with rfl
      exact hinv
    · intro u hu
      exact Option.noConfusion hu
  · rw [if_neg h]
    refine ⟨fun r hr => absurd hr (List.not_mem_nil r), hinv, rfl, rfl, rfl, ?_⟩
    intro u hu
    exact (Option.some.inj hu).symm

/-- The per-task submission body preserves `PipeInv` at every write, never
touches `waiting` or `jobs`, and either leaves `executing` alone (the
submit and abort paths) or removes exactly the processed task (the cached
path); a task appended to `running` leaves `executing` untouched. -/
lemma processTask_inv (env : Env) (st : ExecSt) (t : KTask)
    (hinv : PipeInv st.pipe) (ht : t.name ∈ st.pipe.executing) :
    (∀ r ∈ pipeWrites (processTask env st t).2.1, PipeInv r) ∧
    PipeInv (processTask env st t).1.pipe ∧
    (processTask env st t).1.pipe.waiting = st.pipe.waiting ∧
    (processTask env st t).1.pipe.jobs = st.pipe.jobs ∧
    ((processTask env st t).1.pipe.executing = st.pipe.executing ∨
      (processTask env st t).1.pipe.executing =
        st.pipe.executing.erase t.name) ∧
    (∀ u, (processTask env st t).2.2.1 = some u → u = t ∧
      (processTask env st t).1.pipe.executing = st.pipe.executing) := by
  cases houts : t.outputs with
  | none =>
    simp only [processTask, houts]
    have h := submitStep_inv env
      { st with taskdb := assocSet t.name ({ getTask st t.name with args := t.args, inputs := t.inputs }) st.taskdb }
      t hinv
    exact ⟨fun r hr => h.1 r hr, h.2.1, h.2.2.1, h.2.2.2.1,
      Or.inl h.2.2.2.2.1,
      fun u hu => ⟨h.2.2.2.2.2 u hu, h.2.2.2.2.1⟩⟩
  | some outs =>
    simp only [processTask, houts]
    by_cases hhf : (env.beh t.name).hashTaskFails = true
    · rw [if_pos hhf]
      refine ⟨?_, hinv, rfl, rfl, Or.inl rfl, ?_⟩
      · intro r hr
        rcases List.mem_singleton.mp hr with rfl
        exact hinv
      · intro u hu
        exact Option.noConfusion hu
    · rw [if_neg hhf]
      by_cases hhit : memoryCacheGetItem st.cache (hashInputs env t) =
          some (hashOutputs env outs)
      · rw [if_pos hhit]
        have hmv := pipeInv_move st.pipe t.name ht hinv
        refine ⟨?_, hmv, rfl, rfl, Or.inr rfl, ?_⟩
        · intro r hr
          rcases List.mem_singleton.mp hr with rfl
          exact hmv
        · intro u hu
          exact Option.noConfusion hu
      · rw [if_neg hhit]
        have h := submitStep_inv env
          { st with taskdb := assocSet t.name ({ getTask st t.name with args := t.args, inputs := t.inputs }) st.taskdb, lastInHash := hashInputs env t }
          t hinv
        exact ⟨fun r hr => h.1 r hr, h.2.1, h.2.2.1, h.2.2.2.1,
          Or.inl h.2.2.2.2.1,
          fun u hu => ⟨h.2.2.2.2.2 u hu, h.2.2.2.2.1⟩⟩

/-- The submission loop preserves `PipeInv` at every write; names outside
the pending list stay in `executing`, and the returned running list is a
subset of the pending list with distinct names, all still in
`executing`. -/
lemma submitPhase_inv (env : Env) : ∀ (pending : List KTask) (st : ExecSt),
    PipeInv st.pipe →
    (pending.map (fun u => u.name)).Nodup →
    (∀ u ∈ pending, u.name ∈ st.pipe.executing) →
    (∀ r ∈ pipeWrites (submitPhase env st pending).2.1, PipeInv r) ∧
    PipeInv (submitPhase env st pending).1.pipe ∧
    (submitPhase env st pending).1.pipe.waiting = st.pipe.waiting ∧
    (submitPhase env st pending).1.pipe.jobs = st.pipe.jobs ∧
    (∀ x, x ∈ st.pipe.executing → x ∉ pending.map (fun u => u.name) →
      x ∈ (submitPhase env st pending).1.pipe.executing) ∧
    (∀ u ∈ (submitPhase env st pending).2.2.1, u ∈ pending) ∧
    (∀ u ∈ (submitPhase env st pending).2.2.1,
      u.name ∈ (submitPhase env st pending).1.pipe.executing) ∧
    ((submitPhase env st pending).2.2.1.map (fun u => u.name)).Nodup := by
  intro pending
  induction pending with
  | nil =>
    intro st hinv _ _
    exact ⟨fun r hr => absurd hr (List.not_mem_nil r), hinv, rfl, rfl,
      fun x hx _ => hx, fun u hu => absurd hu (List.not_mem_nil u),
      fun u hu => absurd hu (List.not_mem_nil u), List.nodup_nil⟩
  | cons t rest ih =>
    intro st hinv hnd hsub
    have hndc := List.nodup_cons.mp hnd
    have htm : t.name ∈ st.pipe.executing := hsub t (List.mem_cons_self t rest)
    obtain ⟨pa, pb, pc, pd, pe, pf⟩ := processTask_inv env st t hinv htm
    simp only [submitPhase]
    by_cases hab : (processTask env st t).2.2.2 = true
    · rw [if_pos hab]
      refine ⟨pa, pb, pc, pd, ?_, ?_, ?_, ?_⟩
      · intro x hx hxn
        have hxt : x ≠ t.name := by
          intro e
          apply hxn
          rw [e]
          simp
        rcases pe with h | h
        · rw [h]; exact hx
        · rw [h]; exact (List.mem_erase_of_ne hxt).mpr hx
      · intro u hu; exact absurd hu (List.not_mem_nil u)
      · intro u hu; exact absurd hu (List.not_mem_nil u)
      · exact List.nodup_nil
    · rw [if_neg hab]
      have hsub' : ∀ u ∈ rest, u.name ∈ (processTask env st t).1.pipe.executing := by
        intro u hu
        have hx : u.name ∈ st.pipe.executing :=
          hsub u (List.mem_cons_of_mem t hu)
        have hne : u.name ≠ t.name := by
          intro e
          have hm : u.name ∈ List.map (fun u => u.name) rest :=
            List.mem_map_of_mem (fun u => u.name) hu
          rw [e] at hm
          exact hndc.1 hm
        rcases pe with h | h
        · rw [h]; exact hx
        · rw [h]; exact (List.mem_erase_of_ne hne).mpr hx
      obtain ⟨qa, qb, qc, qd, qe, qf, qg, qh⟩ :=
        ih (processTask env st t).1 pb hndc.2 hsub'
      refine ⟨?_, qb, by rw [qc, pc], by rw [qd, pd], ?_, ?_, ?_, ?_⟩
      · intro r hr
        rw [pipeWrites_append] at hr
        rcases List.mem_append.mp hr with h | h
        · exact pa r h
        · exact qa r h
      · intro x hx hxn
        have hxt : x ≠ t.name := by
          intro e
          apply hxn
          rw [e]
          simp
        have hxr : x ∉ rest.map (fun u => u.name) := by
          intro hm
          apply hxn
          simp only [List.map_cons, List.mem_cons]
          exact Or.inr hm
        have hx1 : x ∈ (processTask env st t).1.pipe.executing := by
          rcases pe with h | h
          · rw [h]; exact hx
          · rw [h]; exact (List.mem_erase_of_ne hxt).mpr hx
        exact qe x hx1 hxr
      · intro u hu
        rcases List.mem_append.mp hu with h | h
        · rw [Option.mem_toList] at h
          have hut := (pf u h).1
          rw [hut]
          exact List.mem_cons_self t rest
        · exact List.mem_cons_of_mem t (qf u h)
      · intro u hu
        rcases List.mem_append.mp hu with h | h
        · rw [Option.mem_toList] at h
          obtain ⟨hut, hexec⟩ := pf u h
          rw [hut]
          have hu1 : t.name ∈ (processTask env st t).1.pipe.executing := by
            rw [hexec]; exact htm
          exact qe t.name hu1 hndc.1
        · exact qg u h
      · rw [List.map_append]
        rcases hopt : (processTask env st t).2.2.1 with _ | u
        · simpa [hopt] using qh
        · have hut := (pf u hopt).1
          simp only [hopt, hut, Option.toList_some, List.map_cons,
            List.map_nil, List.cons_append, List.nil_append, List.nodup_cons]
          refine ⟨?_, qh⟩
          intro hm
          rcases List.mem_map.mp hm with ⟨v, hv, he⟩
          have hvm : v.name ∈ List.map (fun u => u.name) rest :=
            List.mem_map_of_mem (fun u => u.name) (qf v hv)
          rw [he] at hvm
          exact hndc.1 hvm

/-- The per-completion body preserves `PipeInv` at every write, never
touches `waiting` or `jobs`, and either leaves `executing` alone (the
failure path) or removes exactly the completed task. -/
lemma processCompletion_inv (env : Env) (st : ExecSt) (t : KTask)
    (hinv : PipeInv st.pipe) (ht : t.name ∈ st.pipe.executing) :
    (∀ r ∈ pipeWrites (processCompletion env st t).2, PipeInv r) ∧
    PipeInv (processCompletion env st t).1.pipe ∧
    (processCompletion env st t).1.pipe.waiting = st.pipe.waiting ∧
    (processCompletion env st t).1.pipe.jobs = st.pipe.jobs ∧
    ((processCompletion env st t).1.pipe.executing = st.pipe.executing ∨
      (processCompletion env st t).1.pipe.executing =
        st.pipe.executing.erase t.name) := by
  simp only [processCompletion]
  by_cases hsucc : ¬ (env.beh t.name).succeeded = true
  · rw [if_pos hsucc]
    refine ⟨?_, hinv, rfl, rfl, Or.inl rfl⟩
    intro r hr
    rcases List.mem_singleton.mp hr with rfl
    exact hinv
  · rw [if_neg hsucc]
    by_cases hee : (env.beh t.name).earlyExit = true
    · rw [if_pos hee]
      have hmv := pipeInv_move { st.pipe with status := .DONE } t.name ht hinv
      cases houts : t.outputs with
      | none =>
        simp only [houts]
        refine ⟨?_, hmv, by trivial, by trivial, Or.inr (by trivial)⟩
        intro r hr
        rcases List.mem_singleton.mp hr with rfl
        exact hmv
      | some outs =>
        simp only [houts]
        refine ⟨?_, hmv, by trivial, by trivial, Or.inr (by trivial)⟩
        intro r hr
        rcases List.mem_singleton.mp hr with rfl
        exact hmv
    · rw [if_neg hee]
      have hmv := pipeInv_move st.pipe t.name ht hinv
      cases houts : t.outputs with
      | none =>
        simp only [houts]
        refine ⟨?_, hmv, by trivial, by trivial, Or.inr (by trivial)⟩
        intro r hr
        rcases List.mem_singleton.mp hr with rfl
        exact hmv
      | some outs =>
        simp only [houts]
        refine ⟨?_, hmv, by trivial, by trivial, Or.inr (by trivial)⟩
        intro r hr
        rcases List.mem_singleton.mp hr with rfl
        exact hmv

/-- The completion drain preserves `PipeInv` at every write and never
touches `waiting` or `jobs`. -/
lemma drainPhase_inv (env : Env) : ∀ (order : List KTask) (st : ExecSt),
    PipeInv st.pipe →
    (order.map (fun u => u.name)).Nodup →
    (∀ u ∈ order, u.name ∈ st.pipe.executing) →
    (∀ r ∈ pipeWrites (drainPhase env st order).2, PipeInv r) ∧
    PipeInv (drainPhase env st order).1.pipe ∧
    (drainPhase env st order).1.pipe.waiting = st.pipe.waiting ∧
    (drainPhase env st order).1.pipe.jobs = st.pipe.jobs := by
  intro order
  induction order with
  | nil =>
    intro st hinv _ _
    exact ⟨fun r hr => absurd hr (List.not_mem_nil r), hinv, rfl, rfl⟩
  | cons t rest ih =>
    intro st hinv hnd hsub
    have hndc := List.nodup_cons.mp hnd
    have htm : t.name ∈ st.pipe.executing := hsub t (List.mem_cons_self t rest)
    obtain ⟨pa, pb, pc, pd, pe⟩ := processCompletion_inv env st t hinv htm
    have hsub' : ∀ u ∈ rest,
        u.name ∈ (processCompletion env st t).1.pipe.executing := by
      intro u hu
      have hx : u.name ∈ st.pipe.executing :=
        hsub u (List.mem_cons_of_mem t hu)
      have hne : u.name ≠ t.name := by
        intro e
        have hm : u.name ∈ List.map (fun u => u.name) rest :=
          List.mem_map_of_mem (fun u => u.name) hu
        rw [e] at hm
        exact hndc.1 hm
      rcases pe with h | h
      · rw [h]; exact hx
      · rw [h]; exact (List.mem_erase_of_ne hne).mpr hx
    obtain ⟨qa, qb, qc, qd⟩ := ih (processCompletion env st t).1 pb hndc.2 hsub'
    simp only [drainPhase]
    refine ⟨?_, qb, by rw [qc, pc], by rw [qd, pd]⟩
    intro r hr
    rw [pipeWrites_append] at hr
    rcases List.mem_append.mp hr with h | h
    · exact pa r h
    · exact qa r h

/-- The layer-start write preserves `PipeInv` when `waiting` holds exactly
the current and later layers' names. -/
lemma layerStart_inv (st : ExecSt) (g : List KTask) (rest : List (List KTask))
    (hinv : PipeInv st.pipe)
    (hw : st.pipe.waiting = g.map (fun u => u.name) ++
      (rest.map (fun x => x.map (fun u => u.name))).flatten) :
    PipeInv (layerStart st g rest).1.pipe ∧
    (layerStart st g rest).1.pipe.executing = g.map (fun u => u.name) ∧
    (layerStart st g rest).1.pipe.waiting =
      (rest.map (fun x => x.map (fun u => u.name))).flatten ∧
    (layerStart st g rest).1.pipe.jobs = st.pipe.jobs := by
  obtain ⟨hnd, hperm⟩ := hinv
  simp only [layerStart]
  by_cases h : st.pipe.executing.isEmpty = true
  · rw [if_pos h]
    have hex : st.pipe.executing = [] := List.isEmpty_iff.mp h
    refine ⟨⟨?_, ?_⟩, by trivial, by trivial, by trivial⟩
    · have : st.pipe.executed ++ g.map (fun u => u.name) ++
          (rest.map (fun x => x.map (fun u => u.name))).flatten =
          st.pipe.executed ++ st.pipe.executing ++ st.pipe.waiting := by
        rw [hex, hw]
        simp [List.append_assoc]
      rw [this]
      exact hnd
    · have : st.pipe.executed ++ g.map (fun u => u.name) ++
          (rest.map (fun x => x.map (fun u => u.name))).flatten =
          st.pipe.executed ++ st.pipe.executing ++ st.pipe.waiting := by
        rw [hex, hw]
        simp [List.append_assoc]
      rw [this]
      exact hperm
  · rw [if_neg h]
    refine ⟨⟨?_, ?_⟩, by trivial, by trivial, by trivial⟩
    · have : st.pipe.executed ++ st.pipe.executing ++ g.map (fun u => u.name) ++
          (rest.map (fun x => x.map (fun u => u.name))).flatten =
          st.pipe.executed ++ st.pipe.executing ++ st.pipe.waiting := by
        rw [hw]
        simp [List.append_assoc]
      rw [this]
      exact hnd
    · have : st.pipe.executed ++ st.pipe.executing ++ g.map (fun u => u.name) ++
          (rest.map (fun x => x.map (fun u => u.name))).flatten =
          st.pipe.executed ++ st.pipe.executing ++ st.pipe.waiting := by
        rw [hw]
        simp [List.append_assoc]
      rw [this]
      exact hperm

/-- The layer loop preserves `PipeInv` at every persisted write. -/
lemma runLayers_inv (env : Env) : ∀ (gs : List (List KTask)) (st : ExecSt)
    (k : Nat),
    PipeInv st.pipe →
    st.pipe.waiting = (gs.map (fun g => g.map (fun u => u.name))).flatten →
    (∀ r ∈ pipeWrites (runLayers env st k gs).2.1, PipeInv r) ∧
    PipeInv (runLayers env st k gs).1.pipe := by
  intro gs
  induction gs with
  | nil =>
    intro st k hinv _
    exact ⟨fun r hr => absurd hr (List.not_mem_nil r), hinv⟩
  | cons g rest ih =>
    intro st k hinv hw
    have hwnd : st.pipe.waiting.Nodup := by
      have h := hinv.1
      rw [List.nodup_append] at h
      exact h.2.1
    have hgnd : (g.map (fun u => u.name)).Nodup := by
      rw [hw, List.map_cons, List.flatten_cons, List.nodup_append] at hwnd
      exact hwnd.1
    obtain ⟨la, lb, lc, ld⟩ := layerStart_inv st g rest hinv (by
      simpa using hw)
    obtain ⟨sa, sb, sc, sd, se, sf, sg, sh⟩ := submitPhase_inv env g
      (layerStart st g rest).1 la hgnd (by
        intro u hu
        rw [lb]
        exact List.mem_map_of_mem (fun u => u.name) hu)
    have horder :
        ((pickPerm (env.finishOrder k)
          (submitPhase env (layerStart st g rest).1 g).2.2.1).map
            (fun u => u.name)).Nodup := by
      have hp := (pickPerm_perm (env.finishOrder k)
        (submitPhase env (layerStart st g rest).1 g).2.2.1).map
        (fun u => u.name)
      exact hp.nodup_iff.mpr sh
    obtain ⟨da, db, dc, dd⟩ := drainPhase_inv env
      (pickPerm (env.finishOrder k)
        (submitPhase env (layerStart st g rest).1 g).2.2.1)
      (submitPhase env (layerStart st g rest).1 g).1 sb horder (by
        intro u hu
        exact sg u ((pickPerm_perm (env.finishOrder k)
          (submitPhase env (layerStart st g rest).1 g).2.2.1).mem_iff.mp hu))
    have hlsw : pipeWrites (layerStart st g rest).2 =
        [(layerStart st g rest).1.pipe] := (layerStart_fields st g rest).2.2
    simp only [runLayers]
    by_cases hab : (submitPhase env (layerStart st g rest).1 g).2.2.2 = true
    · rw [if_pos hab]
      refine ⟨?_, sb⟩
      intro r hr
      rw [pipeWrites_append] at hr
      rcases List.mem_append.mp hr with h | h
      · rw [hlsw] at h
        rcases List.mem_singleton.mp h with rfl
        exact la
      · exact sa r h
    · rw [if_neg hab]
      by_cases hterm :
          (drainPhase env (submitPhase env (layerStart st g rest).1 g).1
            (pickPerm (env.finishOrder k)
              (submitPhase env (layerStart st g rest).1 g).2.2.1)).1.pipe.status =
            .DONE ∨
          (drainPhase env (submitPhase env (layerStart st g rest).1 g).1
            (pickPerm (env.finishOrder k)
              (submitPhase env (layerStart st g rest).1 g).2.2.1)).1.pipe.status =
            .TERMINATED
      · rw [if_pos hterm]
        refine ⟨?_, db⟩
        intro r hr
        rw [pipeWrites_append, pipeWrites_append] at hr
        rcases List.mem_append.mp hr with h' | h3
        · rcases List.mem_append.mp h' with h1 | h2
          · rw [hlsw] at h1
            rcases List.mem_singleton.mp h1 with rfl
            exact la
          · exact sa r h2
        · exact da r h3
      · rw [if_neg hterm]
        have hw' : (drainPhase env
            (submitPhase env (layerStart st g rest).1 g).1
            (pickPerm (env.finishOrder k)
              (submitPhase env (layerStart st g rest).1 g).2.2.1)).1.pipe.waiting =
            (rest.map (fun g => g.map (fun u => u.name))).flatten := by
          rw [dc, sc, lc]
        obtain ⟨ra, rb⟩ := ih
          (drainPhase env (submitPhase env (layerStart st g rest).1 g).1
            (pickPerm (env.finishOrder k)
              (submitPhase env (layerStart st g rest).1 g).2.2.1)).1
          (k + 1) db hw'
        refine ⟨?_, rb⟩
        intro r hr
        rw [pipeWrites_append, pipeWrites_append, pipeWrites_append] at hr
        rcases List.mem_append.mp hr with hr' | h4
        · rcases List.mem_append.mp hr' with hr'' | h3
          · rcases List.mem_append.mp hr'' with h1 | h2
            · rw [hlsw] at h1
              rcases List.mem_singleton.mp h1 with rfl
              exact la
            · exact sa r h2
          · exact da r h3
        · exact ra r h4

/-- The final write preserves `PipeInv`. -/
lemma finalPhase_inv (st : ExecSt) (hinv : PipeInv st.pipe) :
    (∀ r ∈ pipeWrites (finalPhase st).2, PipeInv r) ∧
    PipeInv (finalPhase st).1.pipe := by
  obtain ⟨hnd, hperm⟩ := hinv
  have hflush : PipeInv { st.pipe with
      completionTimeSet := true
      executed := st.pipe.executed ++ st.pipe.executing
      executing := ([] : List String) } := by
    refine ⟨?_, ?_⟩
    · have : st.pipe.executed ++ st.pipe.executing ++ ([] : List String) ++
          st.pipe.waiting = st.pipe.executed ++ st.pipe.executing ++
          st.pipe.waiting := by simp
      rw [this]
      exact hnd
    · have : st.pipe.executed ++ st.pipe.executing ++ ([] : List String) ++
          st.pipe.waiting = st.pipe.executed ++ st.pipe.executing ++
          st.pipe.waiting := by simp
      rw [this]
      exact hperm
  simp only [finalPhase]
  by_cases h1 : ¬ st.pipe.executing.isEmpty = true ∧
      st.pipe.status ≠ .TERMINATED
  · rw [if_pos h1]
    by_cases h2 : st.pipe.status ≠ .TERMINATED
    · rw [if_pos h2]
      refine ⟨?_, hflush⟩
      intro r hr
      rcases List.mem_singleton.mp hr with rfl
      exact hflush
    · rw [if_neg h2]
      refine ⟨?_, hflush⟩
      intro r hr
      rcases List.mem_singleton.mp hr with rfl
      exact hflush
  · rw [if_neg h1]
    by_cases h2 : st.pipe.status ≠ .TERMINATED
    · rw [if_pos h2]
      refine ⟨?_, hnd, hperm⟩
      intro r hr
      rcases List.mem_singleton.mp hr with rfl
      exact ⟨hnd, hperm⟩
    · rw [if_neg h2]
      refine ⟨?_, hnd, hperm⟩
      intro r hr
      rcases List.mem_singleton.mp hr with rfl
      exact ⟨hnd, hperm⟩

/-- C4: provided the task names are unique (which `read_pipeline_config`
enforces before the executor runs), every pipeline record the executor
persists has pairwise-disjoint `executed`, `executing` and `waiting`
lists whose union is exactly the record's `jobs` list (read as `[]` for
the two writes made before the `jobs` key exists). -/
theorem c4_partition (env : Env) (myId taskId revVer : String)
    (dagError : Option String) (groups : List (List GTask))
    (cache0 : List (String × String))
    (hnd : (allNames groups).Nodup) :
    ∀ r ∈ pipeWrites (execTrace env myId taskId revVer dagError groups cache0),
      PipePartitionOK r := by
  unfold execTrace runExec
  cases dagError with
  | some msg =>
    intro r hr
    rcases List.mem_singleton.mp hr with rfl
    exact pipeInv_partition _ ⟨List.nodup_nil, List.Perm.refl []⟩
  | none =>
    simp only
    have hb2 : pipeWrites (builtSt myId taskId revVer groups cache0).2 = [] :=
      (buildEntries_pipe myId groups (initSt myId taskId revVer cache0)).2
    have hbp : (builtSt myId taskId revVer groups cache0).1.pipe =
        initialPipe myId taskId revVer .BUILDING none :=
      (buildEntries_pipe myId groups (initSt myId taskId revVer cache0)).1
    have hinv2 : PipeInv (runningSt myId taskId revVer groups cache0).pipe := by
      show PipeInv { (builtSt myId taskId revVer groups cache0).1.pipe with
        status := .RUNNING
        waiting := allNames groups
        jobs := some (allNames groups) }
      rw [hbp]
      exact ⟨by simpa [initialPipe] using hnd, by simp [initialPipe]⟩
    have hw2 : (runningSt myId taskId revVer groups cache0).pipe.waiting =
        ((groups.map (fun g => g.map (·.task))).map
          (fun g => g.map (fun u => u.name))).flatten := by
      show allNames groups = _
      simp [allNames, List.map_map, Function.comp_def]
    obtain ⟨ra, rb⟩ := runLayers_inv env (groups.map (fun g => g.map (·.task)))
      (runningSt myId taskId revVer groups cache0) 0 hinv2 hw2
    have hinv0 : PipeInv (initialPipe myId taskId revVer .BUILDING none) :=
      ⟨List.nodup_nil, List.Perm.refl []⟩
    by_cases hab : (runLayers env (runningSt myId taskId revVer groups cache0)
        0 (groups.map (fun g => g.map (·.task)))).2.2 = true
    · rw [if_pos hab]
      intro r hr
      simp only [pipeWrites_append, pipeWrites_cons_pipeW, pipeWrites_nil, hb2,
        List.nil_append, List.append_nil, List.cons_append,
        List.mem_cons, List.mem_append, List.mem_singleton] at hr
      rcases hr with rfl | rfl | h3
      · exact pipeInv_partition _ hinv0
      · exact pipeInv_partition _ hinv2
      · exact pipeInv_partition _ (ra r h3)
    · rw [if_neg hab]
      obtain ⟨fa, fb⟩ := finalPhase_inv
        (runLayers env (runningSt myId taskId revVer groups cache0) 0
          (groups.map (fun g => g.map (·.task)))).1 rb
      intro r hr
      simp only [pipeWrites_append, pipeWrites_cons_pipeW, pipeWrites_nil, hb2,
        List.nil_append, List.append_nil, List.cons_append,
        List.mem_cons, List.mem_append, List.mem_singleton] at hr
      rcases hr with rfl | rfl | h3 | h4
      · exact pipeInv_partition _ hinv0
      · exact pipeInv_partition _ hinv2
      · exact pipeInv_partition _ (ra r h3)
      · exact pipeInv_partition _ (fa r h4)

/-- Witness for `c4_partition` at a concrete two-layer run. -/
theorem c4_partition_witness :
    (allNames [[⟨taskA, "a"⟩], [⟨taskB, "b"⟩]]).Nodup ∧
    ∀ r ∈ pipeWrites (execTrace sampleEnv "p" "job" "r1" none
        [[⟨taskA, "a"⟩], [⟨taskB, "b"⟩]] []),
      PipePartitionOK r :=
  ⟨by decide, c4_partition sampleEnv "p" "job" "r1" none
    [[⟨taskA, "a"⟩], [⟨taskB, "b"⟩]] [] (by decide)⟩

/-- Witness for `c3_amended`: a concrete two-layer all-success run. -/
theorem c3_amended_witness :
    GoodBeh sampleEnv ∧
    ∀ r ∈ pipeWrites (execTrace sampleEnv "p" "job" "r1" none
        [[⟨taskA0, "a"⟩], [⟨taskB0, "b"⟩]] []),
      (r.status = .DONE ∨ r.status = .TERMINATED) →
      r.executing = [] ∧ r.waiting = [] :=
  have hg : GoodBeh sampleEnv := fun _ => ⟨rfl, rfl, rfl, rfl⟩
  ⟨hg, c3_amended sampleEnv "p" "job" "r1" none
    [[⟨taskA0, "a"⟩], [⟨taskB0, "b"⟩]] [] hg⟩

/-- Witness for `c6_amended` at the concrete state `c6wSt`. -/
theorem c6_amended_witness :
    (taskA.outputs = some outsA ∧
      (sampleEnv.beh taskA.name).hashTaskFails = false ∧
      memoryCacheGetItem c6wSt.cache (hashInputs sampleEnv taskA) =
        some (hashOutputs sampleEnv outsA) ∧
      (getTask c6wSt taskA.name).label = taskA.name ∧
      (getTask c6wSt taskA.name).completionTimeSet = false) ∧
    ((processTask sampleEnv c6wSt taskA).2.2.1 = none ∧
      submitNames (processTask sampleEnv c6wSt taskA).2.1 = [] ∧
      (∀ r ∈ taskWritesFor taskA.name (processTask sampleEnv c6wSt taskA).2.1,
        r.completionTimeSet = false)) :=
  ⟨⟨rfl, rfl, rfl, rfl, rfl⟩,
    have h := c6_amended sampleEnv c6wSt taskA outsA rfl rfl rfl rfl rfl
    ⟨h.1, h.2.2.1, h.2.2.2.1⟩⟩

end Odin
